import Mathlib

/-!
Verification of the frugal IDL compiler frontend (parser + semantic analysis).

The development shallowly embeds the Go source under a name arena: parse
trees, declarations and type expressions become inductive types; resolved
name references are stable indices into per-kind declaration lists
(structs, enums, typedefs, services); 32-bit machine arithmetic is `Int`
with explicit two's-complement wrapping.  Stateful diagnostic reporting
becomes explicit diagnostic lists returned by each checking function, in
emission order.  Potentially diverging traversals (typedef unwrapping,
cyclic-reference walks) take an explicit fuel parameter; exhausting fuel
for every bound is the embedding's rendering of divergence.
-/

/-! ## Tokens (parser/tokens.go) -/

/-- Token kinds, mirroring the `TokenKind` constants of `parser/tokens.go`. -/
inductive TokenKind where
  | TOK_ERROR | TOK_EOF | TOK_IDENTIFIER | TOK_LITERAL_INT | TOK_LITERAL_STRING
  | TOK_CONST | TOK_DOUBLE | TOK_ENUM | TOK_EXCEPTION | TOK_EXTENDS
  | TOK_I32 | TOK_I64 | TOK_INCLUDE | TOK_LIST | TOK_MAP
  | TOK_NAMESPACE | TOK_ONEWAY | TOK_OPTIONAL | TOK_REQUIRED | TOK_SERVICE
  | TOK_STRING | TOK_STRUCT | TOK_THROWS | TOK_TYPEDEF | TOK_VOID
  | TOK_LBRACE | TOK_RBRACE | TOK_LBRACKET | TOK_RBRACKET
  | TOK_LPAREN | TOK_RPAREN | TOK_LT | TOK_GT
  | TOK_ASSIGN | TOK_COLON | TOK_DOT | TOK_COMMA
  deriving DecidableEq, Repr, Fintype

/-- The `KeywordMap` table of `parser/tokens.go`: source spelling to keyword
kind. -/
def KeywordMap : List (String × TokenKind) :=
  [ ("const", .TOK_CONST), ("double", .TOK_DOUBLE), ("enum", .TOK_ENUM),
    ("exception", .TOK_EXCEPTION), ("extends", .TOK_EXTENDS),
    ("i32", .TOK_I32), ("i64", .TOK_I64), ("include", .TOK_INCLUDE),
    ("list", .TOK_LIST), ("map", .TOK_MAP), ("namespace", .TOK_NAMESPACE),
    ("oneway", .TOK_ONEWAY), ("optional", .TOK_OPTIONAL),
    ("required", .TOK_REQUIRED), ("service", .TOK_SERVICE),
    ("string", .TOK_STRING), ("struct", .TOK_STRUCT), ("throws", .TOK_THROWS),
    ("typedef", .TOK_TYPEDEF), ("void", .TOK_VOID) ]

/-- The `PrettyPrintMap` table of `parser/tokens.go`, entry for entry
(including the `TOK_RBRACKET` entry exactly as written in the source). -/
def PrettyPrintMap : TokenKind → Option String
  | .TOK_IDENTIFIER => some "<identifier>"
  | .TOK_LITERAL_INT => some "<integer>"
  | .TOK_LITERAL_STRING => some "<string>"
  | .TOK_CONST => some "const"
  | .TOK_DOUBLE => some "double"
  | .TOK_ENUM => some "enum"
  | .TOK_EXCEPTION => some "exception"
  | .TOK_EXTENDS => some "extends"
  | .TOK_I32 => some "i32"
  | .TOK_I64 => some "i64"
  | .TOK_INCLUDE => some "include"
  | .TOK_LIST => some "list"
  | .TOK_MAP => some "map"
  | .TOK_NAMESPACE => some "namespace"
  | .TOK_ONEWAY => some "oneway"
  | .TOK_OPTIONAL => some "optional"
  | .TOK_REQUIRED => some "required"
  | .TOK_SERVICE => some "service"
  | .TOK_STRING => some "string"
  | .TOK_STRUCT => some "struct"
  | .TOK_THROWS => some "throws"
  | .TOK_TYPEDEF => some "typedef"
  | .TOK_VOID => some "void"
  | .TOK_LBRACE => some "\x7b"
  | .TOK_RBRACE => some "\x7d"
  | .TOK_LBRACKET => some "["
  | .TOK_RBRACKET => some "["
  | .TOK_LPAREN => some "("
  | .TOK_RPAREN => some ")"
  | .TOK_LT => some "<"
  | .TOK_GT => some ">"
  | .TOK_ASSIGN => some "="
  | .TOK_COLON => some ":"
  | .TOK_DOT => some "."
  | .TOK_COMMA => some ","
  | _ => none

/-- `Token.Name` of `parser/tokens.go`: the pretty-print entry, defaulting to
an unknown marker. -/
def tokenName (k : TokenKind) : String :=
  (PrettyPrintMap k).getD "<unknown>"

/-- Modelled from the spec: the canonical source spelling of each punctuation
token kind (the tokenizer that classifies source characters into these kinds
is not under src/; per the spec the kind for each punctuation character is
the character itself, e.g. the kind produced for a right bracket is
`TOK_RBRACKET` with spelling `]`). -/
def canonicalPunct : TokenKind → Option String
  | .TOK_LBRACE => some "\x7b"
  | .TOK_RBRACE => some "\x7d"
  | .TOK_LBRACKET => some "["
  | .TOK_RBRACKET => some "]"
  | .TOK_LPAREN => some "("
  | .TOK_RPAREN => some ")"
  | .TOK_LT => some "<"
  | .TOK_GT => some ">"
  | .TOK_ASSIGN => some "="
  | .TOK_COLON => some ":"
  | .TOK_DOT => some "."
  | .TOK_COMMA => some ","
  | _ => none

/-! ## 32-bit integer arithmetic -/

/-- Two's-complement truncation of an integer to 32 bits: the value of the Go
conversion `int32(v)` for an `int64` value `v`. -/
def wrap32 (v : Int) : Int :=
  (v + 2 ^ 31) % 2 ^ 32 - 2 ^ 31

theorem wrap32_eq_self {v : Int} (h1 : -(2 ^ 31) ≤ v) (h2 : v < 2 ^ 31) :
    wrap32 v = v := by
  unfold wrap32
  omega

theorem wrap32_lb (v : Int) : -(2 ^ 31) ≤ wrap32 v := by
  unfold wrap32
  omega

theorem wrap32_ub (v : Int) : wrap32 v < 2 ^ 31 := by
  unfold wrap32
  omega

theorem wrap32_idem (v : Int) : wrap32 (wrap32 v) = wrap32 v :=
  wrap32_eq_self (wrap32_lb v) (wrap32_ub v)

/-! ## Diagnostics

The Go `CompileContext.ReportError` appends a formatted message to a global
list.  Each distinct `ReportError` call site in the analyzed code becomes one
constructor below, carrying the arguments that are interpolated into the
message where a claim depends on them. -/

inductive Diag where
  | redeclared (name : String)
  | i32Range (v : Int)
  | notAType
  | cannotUseType
  | cannotCoerceNode
  | cannotCoerceLit
  | notListLit
  | notMapLit
  | notStructInit
  | expectedFieldString
  | fieldNotFound (field stru : String)
  | missingRequired (field stru : String)
  | notEnumMemberValue (enum : String)
  | enumAsValue (enum : String)
  | notMemberOf (what enum : String)
  | enumMismatch (src dst : String)
  | voidMisuse
  | missingOrder (kind name : String)
  | dupOrder (kind name prev : String)
  | nonPositiveOrder (kind name : String)
  | notService (name : String)
  | notExceptionType
  | notExceptionNode
  | unusedInclude (tok : String)
  | packageAlone (name : String)
  | nameNotFound (name pkg : String)
  | unresolvedName (name : String)
  deriving DecidableEq, Repr

/-! ## Enum symbol entry (sema/enter_symbols.go, `enterEnumSymbols`) -/

/-- An enum entry as parsed: a name and an optional explicit value token
(the `int64` payload of a `TOK_LITERAL_INT`). -/
structure EnumEntrySrc where
  name : String
  value : Option Int
  deriving DecidableEq, Repr

/-- The loop body of `enterEnumSymbols`, carrying the running `value` counter,
the enum's name map (association list, first insertion wins) and the
diagnostic list.  Returns the `ConstVal` assigned to each entry in order,
the final name map, and the diagnostics. -/
def enterEnumSymbolsGo (value : Int) (names : List (String × Int)) :
    List EnumEntrySrc → List Int × List (String × Int) × List Diag
  | [] => ([], names, [])
  | e :: es =>
    let (value, ds0) :=
      match e.value with
      | some x => (wrap32 x, if wrap32 x = x then ([] : List Diag) else [.i32Range x])
      | none => (value, [])
    let constVal := value
    let next := wrap32 (value + 1)
    let (names, ds1) :=
      match names.find? (fun p => p.1 = e.name) with
      | some _ => (names, [Diag.redeclared e.name])
      | none => (names ++ [(e.name, constVal)], [])
    let (vals, nm, ds) := enterEnumSymbolsGo next names es
    (constVal :: vals, nm, ds0 ++ ds1 ++ ds)

/-- `enterEnumSymbols` of `sema/enter_symbols.go`: the counter starts at 0 and
the name map starts empty. -/
def enterEnumSymbols (entries : List EnumEntrySrc) :
    List Int × List (String × Int) × List Diag :=
  enterEnumSymbolsGo 0 [] entries

/-- The `ConstVal` sequence assigned to the entries. -/
def enumConstVals (entries : List EnumEntrySrc) : List Int :=
  (enterEnumSymbols entries).1

/-! ## C2: enum value assignment -/

/-- The value sequence of the `enterEnumSymbols` loop, with the name-map
bookkeeping projected away (the name map does not influence `ConstVal`). -/
def enumValsGo (v : Int) : List (Option Int) → List Int
  | [] => []
  | e :: es =>
    let w := match e with
      | some x => wrap32 x
      | none => v
    w :: enumValsGo (wrap32 (w + 1)) es

theorem enterEnumSymbolsGo_fst (es : List EnumEntrySrc) :
    ∀ v names, (enterEnumSymbolsGo v names es).1 = enumValsGo v (es.map (·.value)) := by
  induction es with
  | nil => intro v names; rfl
  | cons e es ih =>
    intro v names
    cases h : e.value <;>
      simp only [enterEnumSymbolsGo, enumValsGo, List.map_cons, h] <;>
      cases hf : names.find? (fun p => p.1 = e.name) <;>
      simp [hf, ih]

theorem enumValsGo_length (es : List (Option Int)) :
    ∀ v, (enumValsGo v es).length = es.length := by
  induction es with
  | nil => intro v; rfl
  | cons e es ih => intro v; cases e <;> simp [enumValsGo, ih]

theorem enumValsGo_getD (es : List (Option Int)) :
    ∀ v k, k < es.length →
      (enumValsGo v es).getD k 0 =
        match es.getD k none with
        | some x => wrap32 x
        | none => if k = 0 then v else wrap32 ((enumValsGo v es).getD (k - 1) 0 + 1) := by
  induction es with
  | nil => intro v k hk; simp at hk
  | cons e es ih =>
    intro v k hk
    match k with
    | 0 => cases e <;> simp [enumValsGo]
    | Nat.succ k =>
      have hk' : k < es.length := by simpa using hk
      cases e with
      | some x =>
        simp only [enumValsGo, List.getD_cons_succ]
        rw [ih (wrap32 (wrap32 x + 1)) k hk']
        match k, hk' with
        | 0, _ => simp
        | Nat.succ j, hj => simp
      | none =>
        simp only [enumValsGo, List.getD_cons_succ]
        rw [ih (wrap32 (v + 1)) k hk']
        match k, hk' with
        | 0, _ => simp
        | Nat.succ j, hj => simp

theorem wrap32_add_left (a b : Int) : wrap32 (wrap32 a + b) = wrap32 (a + b) := by
  unfold wrap32
  omega

/-- C2 counterexample: the claim says an entry with an explicit value receives
that value, but `enterEnumSymbols` assigns `int32(value)`: an entry declared
with explicit value `2^31` receives the truncated value `-2^31` (and a range
diagnostic), not `2^31`. -/
theorem enterEnumSymbols_explicit_value_truncated :
    enumConstVals [⟨"A", some (2 ^ 31)⟩] = [-(2 ^ 31)] ∧
    (-(2 ^ 31) : Int) ≠ 2 ^ 31 ∧
    Diag.i32Range (2 ^ 31) ∈ (enterEnumSymbols [⟨"A", some (2 ^ 31)⟩]).2.2 := by
  refine ⟨by rfl, by decide, by simp [enterEnumSymbols, enterEnumSymbolsGo, wrap32]⟩

/-- C2 (amended): entry values are assigned by a running 32-bit counter that
starts at 0 and is incremented (with 32-bit wrap-around) after every entry; an
entry with an explicit value receives that value truncated to 32 bits
(two's complement) and resets the counter, so the next value-less entry
receives the truncated value plus one (wrapped); an enum with no explicit
values receives `wrap32 0, wrap32 1, wrap32 2, …` in declaration order. -/
theorem enterEnumSymbols_value_assignment (entries : List EnumEntrySrc) :
    (enumConstVals entries).length = entries.length ∧
    (∀ k, k < entries.length →
      (enumConstVals entries).getD k 0 =
        match (entries.getD k ⟨"", none⟩).value with
        | some x => wrap32 x
        | none =>
          if k = 0 then 0 else wrap32 ((enumConstVals entries).getD (k - 1) 0 + 1)) ∧
    ((∀ e ∈ entries, e.value = none) →
      ∀ k, k < entries.length → (enumConstVals entries).getD k 0 = wrap32 k) := by
  have hfst : enumConstVals entries = enumValsGo 0 (entries.map (·.value)) := by
    unfold enumConstVals enterEnumSymbols
    exact enterEnumSymbolsGo_fst entries 0 []
  refine ⟨?_, ?_, ?_⟩
  · rw [hfst, enumValsGo_length, List.length_map]
  · intro k hk
    rw [hfst]
    have hk' : k < (entries.map (·.value)).length := by simpa using hk
    have := enumValsGo_getD (entries.map (·.value)) 0 k hk'
    rw [this]
    have hmap : (entries.map (·.value)).getD k none = (entries.getD k ⟨"", none⟩).value := by
      rw [List.getD_eq_getElem?_getD, List.getD_eq_getElem?_getD,
        List.getElem?_map]
      cases h : entries[k]? with
      | none => simp
      | some e => simp
    rw [hmap]
  · intro hall k hk
    induction k with
    | zero =>
      rw [hfst]
      have hk' : 0 < (entries.map (·.value)).length := by simpa using hk
      rw [enumValsGo_getD _ 0 0 hk']
      have : (entries.map (·.value)).getD 0 none = none := by
        rw [List.getD_eq_getElem?_getD, List.getElem?_map]
        cases h : entries[0]? with
        | none => simp
        | some e =>
          have : e ∈ entries := by
            exact List.getElem?_mem h
          simp [hall e this]
      rw [this]
      simp [wrap32]
    | succ j ih =>
      have hj : j < entries.length := Nat.lt_of_succ_lt hk
      have hvj := ih hj
      rw [hfst]
      have hk' : j + 1 < (entries.map (·.value)).length := by simpa using hk
      rw [enumValsGo_getD _ 0 (j + 1) hk']
      have : (entries.map (·.value)).getD (j + 1) none = none := by
        rw [List.getD_eq_getElem?_getD, List.getElem?_map]
        cases h : entries[j+1]? with
        | none => simp
        | some e =>
          have : e ∈ entries := List.getElem?_mem h
          simp [hall e this]
      rw [this]
      simp only [Nat.succ_ne_zero, if_false, Nat.add_sub_cancel]
      rw [← hfst, hvj, wrap32_add_left]
      norm_num

/-- Witness for the C2 theorem at a concrete enum: `enum {A; B = 5; C}`
receives values `0, 5, 6`, and `C`'s value is `B`'s plus one. -/
theorem enterEnumSymbols_value_assignment_witness :
    enumConstVals [⟨"A", none⟩, ⟨"B", some 5⟩, ⟨"C", none⟩] = [0, 5, 6] ∧
    (enumConstVals [⟨"A", none⟩, ⟨"B", some 5⟩, ⟨"C", none⟩]).getD 2 0 =
      wrap32 ((enumConstVals [⟨"A", none⟩, ⟨"B", some 5⟩, ⟨"C", none⟩]).getD 1 0 + 1) := by
  constructor
  · rfl
  · have h := (enterEnumSymbols_value_assignment
      [⟨"A", none⟩, ⟨"B", some 5⟩, ⟨"C", none⟩]).2.1 2 (by decide)
    simpa using h

/-! ## C8: token pretty-printing -/

/-- C8: pretty-printing a keyword-kind token yields its canonical spelling
(the `KeywordMap` entry), and pretty-printing a punctuation-kind token yields
its canonical spelling except for `TOK_RBRACKET`: `PrettyPrintMap` maps the
right-bracket kind to `"["` (a copy of the `TOK_LBRACKET` entry), so a token
for the character `]` prints as `[`. -/
theorem tokenName_spelling :
    (KeywordMap.all fun p => tokenName p.2 = p.1) ∧
    tokenName .TOK_RBRACKET = "[" ∧
    canonicalPunct .TOK_RBRACKET = some "]" ∧
    ("[" : String) ≠ "]" ∧
    (∀ k : TokenKind, k ≠ .TOK_RBRACKET →
      canonicalPunct k = none ∨ canonicalPunct k = some (tokenName k)) := by
  refine ⟨by decide, by rfl, by rfl, by decide, by decide⟩

/-- Witness for the C8 theorem at a concrete punctuation kind: the
left-bracket token prints as `[`, its canonical spelling. -/
theorem tokenName_spelling_witness :
    canonicalPunct .TOK_LBRACKET = some (tokenName .TOK_LBRACKET) :=
  (tokenName_spelling.2.2.2.2 .TOK_LBRACKET (by decide)).resolve_left (by decide)

/-! ## The name arena and type expressions (parser/ast.go)

Declarations are stored in per-kind lists (`Env`); a resolved `NameProxyNode`
binding is an index into one of them.  This renders the Go pointer graph
(which may be cyclic across struct fields and service extends chains) as
stable handles, as cross-tree back-references require. -/

/-- The builtin type keywords. -/
inductive BuiltinKind where
  | bool | i32 | i64 | string | double | void
  deriving DecidableEq, Repr

/-- A resolved name binding: the declaration node a `NameProxyNode` points at
after name binding. -/
inductive BindingRef where
  | stru (i : Nat)
  | enum (i : Nat)
  | tdef (i : Nat)
  | service (i : Nat)
  | constant (i : Nat)
  deriving DecidableEq, Repr

/-- A type expression (`parser/ast.go`): builtin, `list<T>`, `map<K,V>`, or a
named reference carrying its binding (`none` while unresolved) and the
unconsumed trailing path components. -/
inductive TypeE where
  | builtin (k : BuiltinKind)
  | list (inner : TypeE)
  | map (key value : TypeE)
  | named (b : Option BindingRef) (tail : List String)
  deriving DecidableEq, Repr

/-- A literal token payload (`TOK_LITERAL_INT`, `TOK_LITERAL_STRING`,
`TOK_TRUE`, `TOK_FALSE`). -/
inductive LitKind where
  | int (v : Int)
  | str (s : String)
  | trueL
  | falseL
  deriving DecidableEq, Repr

/-- An initializer expression (`LiteralNode`, `ListNode`, `MapNode`,
`NameProxyNode` as a value reference). -/
inductive Expr where
  | lit (l : LitKind)
  | list (xs : List Expr)
  | map (entries : List (Expr × Expr))
  | name (b : Option BindingRef) (tail : List String)

/-- A required/optional field qualifier token. -/
inductive SpecKind where
  | required | optional
  deriving DecidableEq, Repr

/-- A struct field (`StructField` of `parser/ast.go`): optional order token
(the `int64` literal payload), optional qualifier, type, name, optional
default value. -/
structure FieldDecl where
  order : Option Int
  spec : Option SpecKind
  type : TypeE
  name : String
  defaultVal : Option Expr

/-- The `struct` vs `exception` declaring keyword of a `StructNode`. -/
inductive StructTok where
  | structKw | exceptionKw
  deriving DecidableEq, Repr

/-- A struct/exception declaration. -/
structure StructDecl where
  tok : StructTok
  name : String
  fields : List FieldDecl

/-- An enum entry after symbol entry: name and assigned 32-bit value. -/
structure EnumEntryDecl where
  name : String
  constVal : Int
  deriving DecidableEq, Repr

/-- An enum declaration after symbol entry.  The name map filled by
`enterEnumSymbols` keeps the first entry for each name, so lookups below use
first-match search over the entry list. -/
structure EnumDecl where
  name : String
  entries : List EnumEntryDecl
  deriving DecidableEq, Repr

/-- A service method argument or throws clause (`ServiceMethodArg`). -/
structure ArgDecl where
  order : Option Int
  type : TypeE
  name : String
  deriving DecidableEq, Repr

/-- A service method (`ServiceMethod`). -/
structure MethodDecl where
  oneWay : Bool
  returnType : TypeE
  name : String
  args : List ArgDecl
  throws : List ArgDecl
  deriving DecidableEq, Repr

/-- A bound `Extends` name proxy: the joined path string (used only in
diagnostics), the resolved binding, and the trailing path components. -/
structure ExtendsClause where
  pathStr : String
  binding : Option BindingRef
  tail : List String
  deriving DecidableEq, Repr

/-- A service declaration.  `extendsRef` is the bound `Extends` proxy,
`none` when there is no extends clause. -/
structure ServiceDecl where
  name : String
  extendsRef : Option ExtendsClause
  methods : List MethodDecl
  deriving DecidableEq, Repr

/-- The declaration arena: every resolved binding indexes into these lists. -/
structure Env where
  structs : List StructDecl
  enums : List EnumDecl
  typedefs : List TypeE
  services : List ServiceDecl

/-- Modelled from the spec: `Type.Resolve()` (its Go source is not under
src/; the spec states typedefs are transparently unwrapped before checking).
Peels `NameProxyNode`s bound to typedefs, returning the final type expression
together with the final binding (`none` for builtin/list/map types, matching
the nil `Node` the Go method returns for them).  `fuel` bounds the unwrapping
depth; `none` renders the divergence Go would exhibit on a cyclic typedef
chain (or a dangling typedef index, which name binding never produces). -/
def resolveFuel (env : Env) : Nat → TypeE → Option (TypeE × Option BindingRef)
  | _, .builtin k => some (.builtin k, none)
  | _, .list t => some (.list t, none)
  | _, .map a b => some (.map a b, none)
  | fuel, .named b tail =>
    match b with
    | some (.tdef i) =>
      match fuel, env.typedefs.get? i with
      | fuel' + 1, some t => resolveFuel env fuel' t
      | _, _ => none
    | _ => some (.named b tail, b)

/-- `Type.Resolve()` with the canonical fuel: an acyclic typedef chain visits
each typedef at most once, so `|typedefs| + 1` steps always suffice. -/
def resolveD (env : Env) (t : TypeE) : Option (TypeE × Option BindingRef) :=
  resolveFuel env (env.typedefs.length + 1) t

/-! ## The type checker (sema/type_checking.go) -/

/-- The coerced, typed value a successful `checkType` produces (`ValueNode`):
the tag corresponds to the token-kind tag stored in the Go `ValueNode`, and a
struct initializer is keyed by field index (the Go map is keyed by
`*StructField` pointer identity). -/
inductive Value where
  | boolV (b : Bool)
  | i32V (v : Int)
  | i64V (v : Int)
  | strV (s : String)
  | listV (vs : List Value)
  | mapV (es : List (Value × Value))
  | structV (init : List (Nat × Value))
  | enumV (entry : EnumEntryDecl)

/-- `TypeChecker.toI32`: coerce an `int64` literal to 32 bits, reporting a
range diagnostic when the truncation is lossy. -/
def toI32 (v : Int) : Option Int × List Diag :=
  let w := wrap32 v
  if w = v then (some w, []) else (none, [.i32Range v])

/-- `TypeChecker.checkBuiltinType`. -/
def checkBuiltinType (k : BuiltinKind) (value : Expr) : Option Value × List Diag :=
  match value with
  | .lit l =>
    match k, l with
    | .bool, .trueL => (some (.boolV true), [])
    | .bool, .falseL => (some (.boolV false), [])
    | .i32, .int v =>
      match toI32 v with
      | (some w, _) => (some (.i32V w), [])
      | (none, ds) => (none, ds)
    | .i64, .int v => (some (.i64V v), [])
    | .string, .str s => (some (.strV s), [])
    | _, _ => (none, [.cannotCoerceLit])
  | _ => (none, [.cannotCoerceNode])

/-- First-match lookup in an enum's name map (filled first-wins by
`enterEnumSymbols`). -/
def lookupEnumEntry (e : EnumDecl) (s : String) : Option EnumEntryDecl :=
  e.entries.find? (fun en => en.name = s)

/-- `TypeChecker.checkEnumType`.  The dangling-index fallbacks return no
value and no diagnostic; name binding only produces indices into the arena,
so they are never taken under the theorems' hypotheses. -/
def checkEnumType (env : Env) (eid : Nat) (value : Expr) : Option Value × List Diag :=
  match env.enums.get? eid with
  | none => (none, [])
  | some enum =>
    match value with
    | .name b tail =>
      match b with
      | some (.enum oid) =>
        match env.enums.get? oid with
        | none => (none, [])
        | some other =>
          match tail with
          | [] => (none, [.enumAsValue other.name])
          | [nm] =>
            match lookupEnumEntry other nm with
            | none => (none, [.notMemberOf nm other.name])
            | some entry =>
              if oid = eid then (some (.enumV entry), [])
              else (none, [.enumMismatch other.name enum.name])
          | nm :: rest =>
            (none, [.notMemberOf (String.intercalate "." (nm :: rest)) other.name])
      | _ => (none, [.notEnumMemberValue enum.name])
    | _ => (none, [.notEnumMemberValue enum.name])

/-- Position-tracking first-match search over a struct's fields: the lookup
`tstruct.Names[fieldName]`, whose map was filled first-wins by
`enterStructSymbols`, together with the field's index (standing in for the
Go field pointer identity). -/
def findFieldIdxGo (s : String) (i : Nat) : List FieldDecl → Option (Nat × FieldDecl)
  | [] => none
  | f :: fs => if f.name = s then some (i, f) else findFieldIdxGo s (i + 1) fs

/-- Lookup of `fieldName` in a struct's name map. -/
def findFieldIdx (d : StructDecl) (s : String) : Option (Nat × FieldDecl) :=
  findFieldIdxGo s 0 d.fields

/-- Map update `init[field] = newval` of the Go `StructInitializer`. -/
def insertReplace (init : List (Nat × Value)) (i : Nat) (v : Value) : List (Nat × Value) :=
  match init with
  | [] => [(i, v)]
  | (j, w) :: rest => if j = i then (i, v) :: rest else (j, w) :: insertReplace rest i v

/-- The trailing loop of `checkStructType`: a missing-required diagnostic for
every field that is not qualified away from required, has no default, and has
no initializer entry (`keys` are the field indices present in `init`). -/
def missingFieldDiagsGo (sname : String) (i : Nat) (keys : List Nat) :
    List FieldDecl → List Diag
  | [] => []
  | f :: fs =>
    let rest := missingFieldDiagsGo sname (i + 1) keys fs
    if f.spec = some .optional then rest
    else if f.defaultVal.isSome then rest
    else if keys.contains i then rest
    else .missingRequired f.name sname :: rest

mutual

/-- `TypeChecker.checkType`: coerce an initializer expression to a declared
type, after unwrapping typedefs. -/
def checkType (env : Env) (ttype : TypeE) (value : Expr) : Option Value × List Diag :=
  match resolveD env ttype with
  | none => (none, [])
  | some (t, _) =>
    match t with
    | .builtin k => checkBuiltinType k value
    | .list inner => checkListType env inner value
    | .map kt vt => checkMapType env kt vt value
    | .named b _ =>
      match b with
      | some (.enum i) => checkEnumType env i value
      | some (.stru i) => checkStructType env i value
      | _ => (none, [.cannotUseType])
termination_by (sizeOf value, 1)

/-- `TypeChecker.checkListType`. -/
def checkListType (env : Env) (inner : TypeE) (value : Expr) : Option Value × List Diag :=
  match value with
  | .list xs =>
    match checkListElems env inner xs with
    | (some vs, ds) => (some (.listV vs), ds)
    | (none, ds) => (none, ds)
  | _ => (none, [.notListLit])
termination_by (sizeOf value, 0)

/-- The element loop of `checkListType`: stops at the first failing element. -/
def checkListElems (env : Env) (inner : TypeE) :
    List Expr → Option (List Value) × List Diag
  | [] => (some [], [])
  | x :: xs =>
    match checkType env inner x with
    | (none, ds) => (none, ds)
    | (some v, ds) =>
      match checkListElems env inner xs with
      | (some vs, ds2) => (some (v :: vs), ds ++ ds2)
      | (none, ds2) => (none, ds ++ ds2)
termination_by xs => (sizeOf xs, 2)

/-- `TypeChecker.checkMapType`. -/
def checkMapType (env : Env) (kt vt : TypeE) (value : Expr) : Option Value × List Diag :=
  match value with
  | .map entries =>
    match checkMapEntries env kt vt entries with
    | (some ps, ds) => (some (.mapV ps), ds)
    | (none, ds) => (none, ds)
  | _ => (none, [.notMapLit])
termination_by (sizeOf value, 0)

/-- The entry loop of `checkMapType`: each key then each value is checked,
stopping at the first failure. -/
def checkMapEntries (env : Env) (kt vt : TypeE) :
    List (Expr × Expr) → Option (List (Value × Value)) × List Diag
  | [] => (some [], [])
  | (k, v) :: es =>
    match checkType env kt k with
    | (none, ds) => (none, ds)
    | (some kv, ds) =>
      match checkType env vt v with
      | (none, ds2) => (none, ds ++ ds2)
      | (some vv, ds2) =>
        match checkMapEntries env kt vt es with
        | (some ps, ds3) => (some ((kv, vv) :: ps), ds ++ ds2 ++ ds3)
        | (none, ds3) => (none, ds ++ ds2 ++ ds3)
termination_by es => (sizeOf es, 2)

/-- `TypeChecker.checkStructType`: the initializer must be a map-shaped
literal; entries are processed in order, then missing required fields are
reported (the successful result is returned even when missing-field
diagnostics were emitted, exactly as in the Go source). -/
def checkStructType (env : Env) (sid : Nat) (value : Expr) : Option Value × List Diag :=
  match env.structs.get? sid with
  | none => (none, [])
  | some decl =>
    match value with
    | .map entries =>
      match checkStructEntries env decl entries [] with
      | (some init, ds) =>
        (some (.structV init),
          ds ++ missingFieldDiagsGo decl.name 0 (init.map (·.1)) decl.fields)
      | (none, ds) => (none, ds)
    | _ => (none, [.notStructInit])
termination_by (sizeOf value, 0)

/-- The entry loop of `checkStructType`: each key must be a string literal
naming a field; the entry value is checked against that field's declared
type; the first failure aborts with no value. -/
def checkStructEntries (env : Env) (decl : StructDecl) :
    List (Expr × Expr) → List (Nat × Value) → Option (List (Nat × Value)) × List Diag
  | [], init => (some init, [])
  | (k, v) :: es, init =>
    match k with
    | .lit (.str fieldName) =>
      match findFieldIdx decl fieldName with
      | none => (none, [.fieldNotFound fieldName decl.name])
      | some (idx, field) =>
        match checkType env field.type v with
        | (none, ds) => (none, ds)
        | (some newval, ds) =>
          match checkStructEntries env decl es (insertReplace init idx newval) with
          | (some finalInit, ds2) => (some finalInit, ds ++ ds2)
          | (none, ds2) => (none, ds ++ ds2)
    | _ => (none, [.expectedFieldString])
termination_by es _ => (sizeOf es, 2)

end

/-- `TypeChecker.affirmType`: a type expression must denote a type — a
builtin, a container of valid types, or a name bound to a struct, typedef or
enum declaration with no trailing path components. -/
def affirmType (env : Env) : TypeE → Bool × List Diag
  | .builtin _ => (true, [])
  | .named b tail =>
    match b with
    | some (.stru _) | some (.tdef _) | some (.enum _) =>
      if tail.isEmpty then (true, []) else (false, [.notAType])
    | _ => (false, [.notAType])
  | .list t => affirmType env t
  | .map k v =>
    match affirmType env k with
    | (true, ds) =>
      match affirmType env v with
      | (bv, ds2) => (bv, ds ++ ds2)
    | (false, ds) => (false, ds)

/-- `TypeChecker.checkNotVoid`: after unwrapping typedefs, report a misuse
diagnostic exactly when the resolved type is the builtin `void`. -/
def checkNotVoid (env : Env) (t : TypeE) : List Diag :=
  match resolveD env t with
  | some (.builtin .void, _) => [.voidMisuse]
  | _ => []

/-- The field loop of `TypeChecker.checkStruct`: order bookkeeping (the
`orders` first-wins map from 32-bit order value to the field holding it),
followed by type affirmation, the void check and the default-value check for
each field. -/
def checkStructFieldsGo (env : Env) (orders : List (Int × String)) :
    List FieldDecl → List Diag
  | [] => []
  | f :: fs =>
    let (orders2, ds) :=
      match f.order with
      | none => (orders, [Diag.missingOrder "field" f.name])
      | some ov =>
        match toI32 ov with
        | (none, ds0) => (orders, ds0)
        | (some w, _) =>
          let (orders1, d1) :=
            match orders.find? (fun p => p.1 = w) with
            | some p => (orders, [Diag.dupOrder "field" f.name p.2])
            | none => (orders ++ [(w, f.name)], [])
          let d2 := if w ≤ 0 then [Diag.nonPositiveOrder "field" f.name] else []
          (orders1, d1 ++ d2)
    ds ++ (affirmType env f.type).2 ++ checkNotVoid env f.type ++
      (match f.defaultVal with
       | none => []
       | some d => (checkType env f.type d).2) ++
      checkStructFieldsGo env orders2 fs

/-- `TypeChecker.checkStruct`. -/
def checkStruct (env : Env) (node : StructDecl) : List Diag :=
  checkStructFieldsGo env [] node.fields

/-- The loop of `TypeChecker.checkOrdering` over a method's argument or
throws list (`kind` is the diagnostic noun, "argument" or "exception"). -/
def checkOrderingGo (kind : String) (orders : List (Int × String)) :
    List ArgDecl → List Diag
  | [] => []
  | a :: rest =>
    match a.order with
    | none => Diag.missingOrder kind a.name :: checkOrderingGo kind orders rest
    | some ov =>
      match toI32 ov with
      | (none, ds0) => ds0 ++ checkOrderingGo kind orders rest
      | (some w, _) =>
        let (orders1, d1) :=
          match orders.find? (fun p => p.1 = w) with
          | some p => (orders, [Diag.dupOrder kind a.name p.2])
          | none => (orders ++ [(w, a.name)], [])
        let d2 := if w ≤ 0 then [Diag.nonPositiveOrder kind a.name] else []
        d1 ++ d2 ++ checkOrderingGo kind orders1 rest

/-- `TypeChecker.checkOrdering`. -/
def checkOrdering (args : List ArgDecl) (kind : String) : List Diag :=
  checkOrderingGo kind [] args

/-- The throws-clause check inside `TypeChecker.checkService`: the type must
affirm, and must resolve (through typedefs) to a struct declared with the
`exception` keyword. -/
def checkThrowsEntry (env : Env) (t : ArgDecl) : List Diag :=
  match affirmType env t.type with
  | (false, ds) => ds
  | (true, ds) =>
    ds ++
    match resolveD env t.type with
    | none => []
    | some (_, none) => [.notExceptionType]
    | some (_, some b) =>
      match b with
      | .stru i =>
        match env.structs.get? i with
        | some d => if d.tok = .exceptionKw then [] else [.notExceptionNode]
        | none => []
      | _ => [.notExceptionNode]

/-- The per-method body of `TypeChecker.checkService`: affirm the return
type (without a void check), affirm and void-check each argument type, check
argument ordering, check each throws clause, check throws ordering. -/
def checkMethod (env : Env) (m : MethodDecl) : List Diag :=
  (affirmType env m.returnType).2 ++
  (m.args.map (fun a => (affirmType env a.type).2 ++ checkNotVoid env a.type)).flatten ++
  checkOrdering m.args "argument" ++
  (m.throws.map (checkThrowsEntry env)).flatten ++
  checkOrdering m.throws "exception"

/-- `TypeChecker.checkService`. -/
def checkService (env : Env) (node : ServiceDecl) : List Diag :=
  (match node.extendsRef with
   | none => []
   | some ext =>
     match ext.binding with
     | some (.service _) =>
       if ext.tail.isEmpty then [] else [.notService ext.pathStr]
     | _ => [.notService ext.pathStr]) ++
  (node.methods.map (checkMethod env)).flatten

/-! ## C1/C10: characterizing `checkStructType` -/

/-- An initializer entry that `checkStructEntries` accepts: its key is a
string literal naming a field of the struct, and its value checks against
that field's declared type. -/
def GoodEntry (env : Env) (decl : StructDecl) (e : Expr × Expr) : Prop :=
  ∃ s idx field, e.1 = .lit (.str s) ∧ findFieldIdx decl s = some (idx, field) ∧
    (checkType env field.type e.2).1.isSome

/-- The index of the field named by an entry's key, if any. -/
def keyFieldIdx (decl : StructDecl) (e : Expr × Expr) : Option Nat :=
  match e.1 with
  | .lit (.str s) =>
    match findFieldIdx decl s with
    | some (idx, _) => some idx
    | none => none
  | _ => none

/-- The diagnostics contributed by checking one accepted entry's value. -/
def entryCheckDiags (env : Env) (decl : StructDecl) (e : Expr × Expr) : List Diag :=
  match e.1 with
  | .lit (.str s) =>
    match findFieldIdx decl s with
    | some (_, field) => (checkType env field.type e.2).2
    | none => []
  | _ => []

/-- The concatenated value-check diagnostics of a list of accepted entries. -/
def structEntryDiags (env : Env) (decl : StructDecl) (entries : List (Expr × Expr)) :
    List Diag :=
  (entries.map (entryCheckDiags env decl)).flatten

/-- The `init[field] = newval` effect of one accepted entry. -/
def entryStep (env : Env) (decl : StructDecl) (acc : List (Nat × Value))
    (e : Expr × Expr) : List (Nat × Value) :=
  match e.1 with
  | .lit (.str s) =>
    match findFieldIdx decl s with
    | some (idx, field) =>
      match (checkType env field.type e.2).1 with
      | some v => insertReplace acc idx v
      | none => acc
    | none => acc
  | _ => acc

theorem checkStructEntries_append_good (env : Env) (decl : StructDecl) :
    ∀ (goods : List (Expr × Expr)), (∀ x ∈ goods, GoodEntry env decl x) →
    ∀ rest init,
      checkStructEntries env decl (goods ++ rest) init =
        ((checkStructEntries env decl rest (goods.foldl (entryStep env decl) init)).1,
          structEntryDiags env decl goods ++
            (checkStructEntries env decl rest (goods.foldl (entryStep env decl) init)).2) := by
  intro goods
  induction goods with
  | nil =>
    intro _ rest init
    simp [structEntryDiags]
  | cons e goods ih =>
    intro hgood rest init
    obtain ⟨s, idx, field, hkey, hfind, hval⟩ := hgood e (by simp)
    obtain ⟨k, v⟩ := e
    simp only at hkey
    subst hkey
    obtain ⟨val, hval⟩ := Option.isSome_iff_exists.mp hval
    have hstep : entryStep env decl init (Expr.lit (.str s), v) = insertReplace init idx val := by
      unfold entryStep
      simp only [hfind, hval]
    have hdiag : entryCheckDiags env decl (Expr.lit (.str s), v) =
        (checkType env field.type v).2 := by
      unfold entryCheckDiags
      simp only [hfind]
    rw [List.cons_append, checkStructEntries]
    simp only [hfind]
    cases hr : checkType env field.type v with
    | mk o ds =>
      rw [hr] at hval
      simp only at hval
      subst hval
      simp only
      rw [ih (fun x hx => hgood x (by simp [hx])) rest (insertReplace init idx val)]
      cases hres : checkStructEntries env decl rest
          (goods.foldl (entryStep env decl) (insertReplace init idx val)) with
      | mk o2 ds2 =>
        cases o2 <;> simp [structEntryDiags, hstep, hdiag, hr, hres]

theorem checkStructEntries_cons_badKey (env : Env) (decl : StructDecl)
    (e : Expr × Expr) (rest : List (Expr × Expr)) (init : List (Nat × Value))
    (h : ∀ s, e.1 ≠ .lit (.str s)) :
    checkStructEntries env decl (e :: rest) init = (none, [.expectedFieldString]) := by
  obtain ⟨k, v⟩ := e
  rw [checkStructEntries]
  cases k with
  | lit l =>
    cases l with
    | str s => exact absurd rfl (h s)
    | int v0 => simp
    | trueL => simp
    | falseL => simp
  | list xs => simp
  | map es => simp
  | name b tail => simp

theorem checkStructEntries_cons_unknownField (env : Env) (decl : StructDecl)
    (s : String) (v : Expr) (rest : List (Expr × Expr)) (init : List (Nat × Value))
    (hfind : findFieldIdx decl s = none) :
    checkStructEntries env decl ((Expr.lit (.str s), v) :: rest) init =
      (none, [.fieldNotFound s decl.name]) := by
  rw [checkStructEntries]
  simp only [hfind]

theorem checkStructEntries_cons_badValue (env : Env) (decl : StructDecl)
    (s : String) (v : Expr) (rest : List (Expr × Expr)) (init : List (Nat × Value))
    (idx : Nat) (field : FieldDecl)
    (hfind : findFieldIdx decl s = some (idx, field))
    (hval : (checkType env field.type v).1 = none) :
    checkStructEntries env decl ((Expr.lit (.str s), v) :: rest) init =
      (none, (checkType env field.type v).2) := by
  rw [checkStructEntries]
  simp only [hfind]
  cases hr : checkType env field.type v with
  | mk o ds =>
    rw [hr] at hval
    simp only at hval
    subst hval
    simp

theorem missingFieldDiags_mem (sname : String) :
    ∀ (fields : List FieldDecl) (i0 i : Nat) (f : FieldDecl) (keys : List Nat),
      fields.get? i = some f →
      f.spec ≠ some .optional → f.defaultVal = none → ¬ keys.contains (i0 + i) →
      Diag.missingRequired f.name sname ∈ missingFieldDiagsGo sname i0 keys fields := by
  intro fields
  induction fields with
  | nil => intro i0 i f keys h; simp at h
  | cons g fs ih =>
    intro i0 i f keys hget hspec hdef hkeys
    match i with
    | 0 =>
      simp only [List.get?_cons_zero, Option.some.injEq] at hget
      subst hget
      unfold missingFieldDiagsGo
      simp only [Nat.add_zero] at hkeys
      rw [if_neg hspec, if_neg (by simp [hdef]), if_neg hkeys]
      simp
    | Nat.succ j =>
      simp only [List.get?_cons_succ] at hget
      have harith : i0 + 1 + j = i0 + j.succ := by omega
      have hmem := ih (i0 + 1) j f keys hget hspec hdef (by rw [harith]; exact hkeys)
      unfold missingFieldDiagsGo
      split
      · exact hmem
      · split
        · exact hmem
        · split
          · exact hmem
          · exact List.mem_cons_of_mem _ hmem

theorem missingFieldDiags_only (sname : String) :
    ∀ (fields : List FieldDecl) (i0 : Nat) (keys : List Nat) (d : Diag),
      d ∈ missingFieldDiagsGo sname i0 keys fields →
      ∃ f ∈ fields, f.spec ≠ some .optional ∧ f.defaultVal = none ∧
        d = .missingRequired f.name sname := by
  intro fields
  induction fields with
  | nil => intro i0 keys d h; simp [missingFieldDiagsGo] at h
  | cons g fs ih =>
    intro i0 keys d hd
    unfold missingFieldDiagsGo at hd
    split at hd
    · obtain ⟨f, hf, h⟩ := ih (i0 + 1) keys d hd
      exact ⟨f, List.mem_cons_of_mem _ hf, h⟩
    · split at hd
      · obtain ⟨f, hf, h⟩ := ih (i0 + 1) keys d hd
        exact ⟨f, List.mem_cons_of_mem _ hf, h⟩
      · split at hd
        · obtain ⟨f, hf, h⟩ := ih (i0 + 1) keys d hd
          exact ⟨f, List.mem_cons_of_mem _ hf, h⟩
        · rcases List.mem_cons.mp hd with h | h
          · refine ⟨g, by simp, by assumption, ?_, h⟩
            rename_i hdef _
            simpa using hdef
          · obtain ⟨f, hf, hrest⟩ := ih (i0 + 1) keys d h
            exact ⟨f, List.mem_cons_of_mem _ hf, hrest⟩

theorem insertReplace_keys (i : Nat) (v : Value) :
    ∀ (init : List (Nat × Value)) (j : Nat),
      j ∈ (insertReplace init i v).map (·.1) → j = i ∨ j ∈ init.map (·.1) := by
  intro init
  induction init with
  | nil => intro j h; simpa [insertReplace] using h
  | cons p rest ih =>
    intro j h
    obtain ⟨pk, pv⟩ := p
    unfold insertReplace at h
    by_cases hpk : pk = i
    · rw [if_pos hpk] at h
      rcases List.mem_map.mp h with ⟨q, hq, hq1⟩
      rcases List.mem_cons.mp hq with h1 | h1
      · subst h1; left; exact hq1.symm ▸ rfl
      · right
        subst hpk
        exact List.mem_map.mpr ⟨q, List.mem_cons_of_mem _ h1, hq1⟩
    · rw [if_neg hpk] at h
      rcases List.mem_map.mp h with ⟨q, hq, hq1⟩
      rcases List.mem_cons.mp hq with h1 | h1
      · right; subst h1; subst hq1; simp
      · rcases ih j (List.mem_map.mpr ⟨q, h1, hq1⟩) with h2 | h2
        · exact Or.inl h2
        · right; simpa using Or.inr (List.mem_map.mp h2)

theorem foldl_entryStep_keys (env : Env) (decl : StructDecl) :
    ∀ (entries : List (Expr × Expr)) (init : List (Nat × Value)) (j : Nat),
      j ∈ ((entries.foldl (entryStep env decl) init).map (·.1)) →
      j ∈ init.map (·.1) ∨ ∃ e ∈ entries, keyFieldIdx decl e = some j := by
  intro entries
  induction entries with
  | nil => intro init j h; exact Or.inl (by simpa using h)
  | cons e rest ih =>
    intro init j h
    rw [List.foldl_cons] at h
    rcases ih (entryStep env decl init e) j h with h1 | h1
    · have hsub : j ∈ init.map (·.1) ∨ keyFieldIdx decl e = some j := by
        obtain ⟨k, v⟩ := e
        unfold entryStep at h1
        unfold keyFieldIdx
        cases k with
        | lit l =>
          cases l with
          | str s =>
            dsimp only at h1 ⊢
            cases hf : findFieldIdx decl s with
            | none =>
              rw [hf] at h1
              exact Or.inl h1
            | some p =>
              obtain ⟨idx, field⟩ := p
              rw [hf] at h1
              dsimp only at h1 ⊢
              cases hc : (checkType env field.type v).1 with
              | none =>
                rw [hc] at h1
                exact Or.inl h1
              | some val =>
                rw [hc] at h1
                rcases insertReplace_keys idx val init j h1 with h2 | h2
                · exact Or.inr (by rw [h2])
                · exact Or.inl h2
          | int v0 => exact Or.inl h1
          | trueL => exact Or.inl h1
          | falseL => exact Or.inl h1
        | list xs => exact Or.inl h1
        | map es => exact Or.inl h1
        | name b tail => exact Or.inl h1
      rcases hsub with h2 | h2
      · exact Or.inl h2
      · exact Or.inr ⟨e, by simp, h2⟩
    · obtain ⟨x, hx, hx2⟩ := h1
      exact Or.inr ⟨x, List.mem_cons_of_mem _ hx, hx2⟩

/-- C1: for a struct-typed constant initializer, the value must be a
map-shaped literal; a key that is not a string literal, a key naming no
field, or an entry value failing its field's type check each abort with the
corresponding diagnostic; when every entry is accepted, the result is the
built initializer and the diagnostics are the per-entry value-check
diagnostics followed by one missing-required diagnostic for every required
field with neither an entry nor a default. -/
theorem checkStructType_initializer_check :
    (∀ (env : Env) (sid : Nat) (decl : StructDecl) (v : Expr),
      env.structs.get? sid = some decl →
      (∀ entries, v ≠ .map entries) →
      checkStructType env sid v = (none, [.notStructInit])) ∧
    (∀ (env : Env) (sid : Nat) (decl : StructDecl) goods (e : Expr × Expr) rest,
      env.structs.get? sid = some decl →
      (∀ x ∈ goods, GoodEntry env decl x) →
      (∀ s, e.1 ≠ .lit (.str s)) →
      checkStructType env sid (.map (goods ++ e :: rest)) =
        (none, structEntryDiags env decl goods ++ [.expectedFieldString])) ∧
    (∀ (env : Env) (sid : Nat) (decl : StructDecl) goods (v : Expr) rest (s : String),
      env.structs.get? sid = some decl →
      (∀ x ∈ goods, GoodEntry env decl x) →
      findFieldIdx decl s = none →
      checkStructType env sid (.map (goods ++ (Expr.lit (.str s), v) :: rest)) =
        (none, structEntryDiags env decl goods ++ [.fieldNotFound s decl.name])) ∧
    (∀ (env : Env) (sid : Nat) (decl : StructDecl) goods (v : Expr) rest (s : String)
        (idx : Nat) (field : FieldDecl),
      env.structs.get? sid = some decl →
      (∀ x ∈ goods, GoodEntry env decl x) →
      findFieldIdx decl s = some (idx, field) →
      (checkType env field.type v).1 = none →
      checkStructType env sid (.map (goods ++ (Expr.lit (.str s), v) :: rest)) =
        (none, structEntryDiags env decl goods ++ (checkType env field.type v).2)) ∧
    (∀ (env : Env) (sid : Nat) (decl : StructDecl) entries,
      env.structs.get? sid = some decl →
      (∀ x ∈ entries, GoodEntry env decl x) →
      checkStructType env sid (.map entries) =
        (some (.structV (entries.foldl (entryStep env decl) [])),
          structEntryDiags env decl entries ++
            missingFieldDiagsGo decl.name 0
              ((entries.foldl (entryStep env decl) []).map (·.1)) decl.fields)) ∧
    (∀ (env : Env) (sid : Nat) (decl : StructDecl) entries (i : Nat) (field : FieldDecl),
      env.structs.get? sid = some decl →
      (∀ x ∈ entries, GoodEntry env decl x) →
      decl.fields.get? i = some field →
      field.spec = some .required → field.defaultVal = none →
      (∀ x ∈ entries, keyFieldIdx decl x ≠ some i) →
      Diag.missingRequired field.name decl.name ∈
        (checkStructType env sid (.map entries)).2) := by
  have hwrap : ∀ (env : Env) (sid : Nat) (decl : StructDecl) entries,
      env.structs.get? sid = some decl →
      checkStructType env sid (.map entries) =
        match checkStructEntries env decl entries [] with
        | (some init, ds) =>
          (some (.structV init),
            ds ++ missingFieldDiagsGo decl.name 0 (init.map (·.1)) decl.fields)
        | (none, ds) => (none, ds) := by
    intro env sid decl entries hget
    rw [checkStructType, hget]
  have hgoodcase : ∀ (env : Env) (sid : Nat) (decl : StructDecl) entries,
      env.structs.get? sid = some decl →
      (∀ x ∈ entries, GoodEntry env decl x) →
      checkStructType env sid (.map entries) =
        (some (.structV (entries.foldl (entryStep env decl) [])),
          structEntryDiags env decl entries ++
            missingFieldDiagsGo decl.name 0
              ((entries.foldl (entryStep env decl) []).map (·.1)) decl.fields) := by
    intro env sid decl entries hget hgood
    rw [hwrap env sid decl entries hget]
    have happ := checkStructEntries_append_good env decl entries hgood [] []
    rw [List.append_nil] at happ
    rw [happ]
    simp [checkStructEntries]
  refine ⟨?_, ?_, ?_, ?_, hgoodcase, ?_⟩
  · intro env sid decl v hget hnm
    rw [checkStructType, hget]
    cases v with
    | map entries => exact absurd rfl (hnm entries)
    | lit l => rfl
    | list xs => rfl
    | name b t => rfl
  · intro env sid decl goods e rest hget hgood hbad
    rw [hwrap env sid decl _ hget,
      checkStructEntries_append_good env decl goods hgood (e :: rest) [],
      checkStructEntries_cons_badKey env decl e rest _ hbad]
  · intro env sid decl goods v rest s hget hgood hfind
    rw [hwrap env sid decl _ hget,
      checkStructEntries_append_good env decl goods hgood _ [],
      checkStructEntries_cons_unknownField env decl s v rest _ hfind]
  · intro env sid decl goods v rest s idx field hget hgood hfind hval
    rw [hwrap env sid decl _ hget,
      checkStructEntries_append_good env decl goods hgood _ [],
      checkStructEntries_cons_badValue env decl s v rest _ idx field hfind hval]
  · intro env sid decl entries i field hget hgood hfield hspec hdef hnokey
    rw [hgoodcase env sid decl entries hget hgood]
    refine List.mem_append.mpr (Or.inr ?_)
    apply missingFieldDiags_mem decl.name decl.fields 0 i field _ hfield
      (by rw [hspec]; simp) hdef
    intro hcontains
    have hm : i ∈ ((entries.foldl (entryStep env decl) []).map (·.1)) := by
      have h0 : (0 : Nat) + i = i := by omega
      rw [h0] at hcontains
      simpa using hcontains
    rcases foldl_entryStep_keys env decl entries [] i hm with h | ⟨e, he, hke⟩
    · simp at h
    · exact hnokey e he hke

/-- The `Point` struct of the spec scenario: `struct Point {1: required i32 x;
2: required i32 y;}`. -/
def pointStruct : StructDecl :=
  ⟨.structKw, "Point",
    [⟨some 1, some .required, .builtin .i32, "x", none⟩,
     ⟨some 2, some .required, .builtin .i32, "y", none⟩]⟩

/-- An arena holding only `Point`. -/
def pointEnv : Env := ⟨[pointStruct], [], [], []⟩

/-- Evaluation helper: an in-range integer literal checks against `i32`. -/
theorem checkType_i32_lit (env : Env) (v : Int) (h1 : -(2 ^ 31) ≤ v) (h2 : v < 2 ^ 31) :
    checkType env (.builtin .i32) (.lit (.int v)) = (some (.i32V v), []) := by
  rw [checkType]
  simp [resolveD, resolveFuel, checkBuiltinType, toI32, wrap32_eq_self h1 h2]

/-- Witness for C1 at the spec's `Point` scenario: `{"x": 1, "y": 2}`
type-checks with no diagnostics, and `{"x": 1}` reports the missing required
field `y`. -/
theorem checkStructType_initializer_check_witness :
    checkStructType pointEnv 0
        (.map [(.lit (.str "x"), .lit (.int 1)), (.lit (.str "y"), .lit (.int 2))]) =
      (some (.structV [(0, .i32V 1), (1, .i32V 2)]), []) ∧
    Diag.missingRequired "y" "Point" ∈
      (checkStructType pointEnv 0 (.map [(.lit (.str "x"), .lit (.int 1))])).2 := by
  have hx : checkType pointEnv (.builtin .i32) (.lit (.int 1)) = (some (.i32V 1), []) :=
    checkType_i32_lit pointEnv 1 (by norm_num) (by norm_num)
  have hy : checkType pointEnv (.builtin .i32) (.lit (.int 2)) = (some (.i32V 2), []) :=
    checkType_i32_lit pointEnv 2 (by norm_num) (by norm_num)
  constructor
  · have h := checkStructType_initializer_check.2.2.2.2.1 pointEnv 0 pointStruct
      [(.lit (.str "x"), .lit (.int 1)), (.lit (.str "y"), .lit (.int 2))] rfl
      (by
        intro x hxm
        cases hxm with
        | head =>
          exact ⟨"x", 0, ⟨some 1, some .required, .builtin .i32, "x", none⟩, rfl, rfl,
            by rw [hx]; rfl⟩
        | tail _ h1 =>
          cases h1 with
          | head =>
            exact ⟨"y", 1, ⟨some 2, some .required, .builtin .i32, "y", none⟩, rfl, rfl,
              by rw [hy]; rfl⟩
          | tail _ h2 => cases h2)
    rw [h]
    simp [entryStep, structEntryDiags, entryCheckDiags, missingFieldDiagsGo,
      findFieldIdx, findFieldIdxGo, insertReplace, pointStruct, hx, hy]
  · exact checkStructType_initializer_check.2.2.2.2.2 pointEnv 0 pointStruct
      [(.lit (.str "x"), .lit (.int 1))] 1
      ⟨some 2, some .required, .builtin .i32, "y", none⟩ rfl
      (by
        intro x hxm
        cases hxm with
        | head =>
          exact ⟨"x", 0, ⟨some 1, some .required, .builtin .i32, "x", none⟩, rfl, rfl,
            by rw [hx]; rfl⟩
        | tail _ h1 => cases h1)
      rfl rfl rfl
      (by
        intro x hxm
        cases hxm with
        | head => decide
        | tail _ h1 => cases h1)

/-- C10: in a struct-typed initializer, a field declared with no
required/optional qualifier is treated exactly like a required field — with
no default and no entry it is reported missing — and only fields explicitly
marked optional are exempt from the missing-field check. -/
theorem checkStructType_unqualified_is_required :
    (∀ (env : Env) (sid : Nat) (decl : StructDecl) entries (i : Nat) (field : FieldDecl),
      env.structs.get? sid = some decl →
      (∀ x ∈ entries, GoodEntry env decl x) →
      decl.fields.get? i = some field →
      field.spec = none → field.defaultVal = none →
      (∀ x ∈ entries, keyFieldIdx decl x ≠ some i) →
      Diag.missingRequired field.name decl.name ∈
        (checkStructType env sid (.map entries)).2) ∧
    (∀ (sname : String) (fields : List FieldDecl) (i0 : Nat) (keys : List Nat)
        (field : FieldDecl),
      field ∈ fields → field.spec = some .optional →
      (fields.map (·.name)).Nodup →
      Diag.missingRequired field.name sname ∉ missingFieldDiagsGo sname i0 keys fields) := by
  constructor
  · intro env sid decl entries i field hget hgood hfield hspec hdef hnokey
    have hwrap : checkStructType env sid (.map entries) =
        (some (.structV (entries.foldl (entryStep env decl) [])),
          structEntryDiags env decl entries ++
            missingFieldDiagsGo decl.name 0
              ((entries.foldl (entryStep env decl) []).map (·.1)) decl.fields) := by
      rw [checkStructType, hget]
      dsimp only
      have happ := checkStructEntries_append_good env decl entries hgood [] []
      rw [List.append_nil] at happ
      rw [happ]
      simp [checkStructEntries]
    rw [hwrap]
    refine List.mem_append.mpr (Or.inr ?_)
    apply missingFieldDiags_mem decl.name decl.fields 0 i field _ hfield
      (by rw [hspec]; simp) hdef
    intro hcontains
    have hm : i ∈ ((entries.foldl (entryStep env decl) []).map (·.1)) := by
      have h0 : (0 : Nat) + i = i := by omega
      rw [h0] at hcontains
      simpa using hcontains
    rcases foldl_entryStep_keys env decl entries [] i hm with h | ⟨e, he, hke⟩
    · simp at h
    · exact hnokey e he hke
  · intro sname fields i0 keys field hmem hopt hnodup hin
    obtain ⟨f, hf, hfspec, _, heq⟩ := missingFieldDiags_only sname fields i0 keys _ hin
    have hname : field.name = f.name := by
      injection heq with h1 h2
    have : field = f :=
      List.inj_on_of_nodup_map hnodup hmem hf hname
    exact hfspec (this ▸ hopt)

/-- A struct with an unqualified field `z` and an optional field `w`. -/
def unqualStruct : StructDecl :=
  ⟨.structKw, "S",
    [⟨some 1, none, .builtin .i32, "z", none⟩,
     ⟨some 2, some .optional, .builtin .i32, "w", none⟩]⟩

/-- An arena holding only `unqualStruct`. -/
def unqualEnv : Env := ⟨[unqualStruct], [], [], []⟩

/-- Witness for C10: the empty initializer for `S` reports the unqualified
field `z` as missing, while the optional field `w` is exempt. -/
theorem checkStructType_unqualified_is_required_witness :
    Diag.missingRequired "z" "S" ∈ (checkStructType unqualEnv 0 (.map [])).2 ∧
    Diag.missingRequired "w" "S" ∉ missingFieldDiagsGo "S" 0 [] unqualStruct.fields := by
  constructor
  · exact checkStructType_unqualified_is_required.1 unqualEnv 0 unqualStruct [] 0
      ⟨some 1, none, .builtin .i32, "z", none⟩ rfl
      (by intro x hx; cases hx) rfl rfl rfl
      (by intro x hx; cases hx)
  · exact checkStructType_unqualified_is_required.2 "S" unqualStruct.fields 0 []
      ⟨some 2, some .optional, .builtin .i32, "w", none⟩
      (List.Mem.tail _ (List.Mem.head _)) rfl (by decide)

/-! ## C3: order-number checking -/

/-- Classifies the diagnostics produced by the ordering checks (the
missing/duplicate/non-positive order errors and the 32-bit order range
error). -/
def isOrderingDiag : Diag → Bool
  | .missingOrder _ _ => true
  | .dupOrder _ _ _ => true
  | .nonPositiveOrder _ _ => true
  | .i32Range _ => true
  | _ => false

/-- The `orders` map update of one field/argument step. -/
def orderStateStep (orders : List (Int × String)) (name : String) (o : Option Int) :
    List (Int × String) :=
  match o with
  | none => orders
  | some ov =>
    match toI32 ov with
    | (none, _) => orders
    | (some w, _) =>
      match orders.find? (fun p => p.1 = w) with
      | some _ => orders
      | none => orders ++ [(w, name)]

theorem orderStateStep_mono (orders : List (Int × String)) (name : String)
    (o : Option Int) (p : Int × String) (h : p ∈ orders) :
    p ∈ orderStateStep orders name o := by
  unfold orderStateStep
  cases o with
  | none => exact h
  | some ov =>
    dsimp only
    cases htr : toI32 ov with
    | mk o2 ds =>
      cases o2 with
      | none => exact h
      | some w0 =>
        dsimp only
        cases orders.find? (fun p => p.1 = w0) with
        | none => exact List.mem_append_left _ h
        | some q => exact h

theorem affirmType_not_ordering (env : Env) :
    ∀ t, ∀ d ∈ (affirmType env t).2, isOrderingDiag d = false := by
  intro t
  induction t with
  | builtin k => intro d hd; simp [affirmType] at hd
  | named b tail =>
    intro d hd
    have hsnd : (affirmType env (.named b tail)).2 = [] ∨
        (affirmType env (.named b tail)).2 = [Diag.notAType] := by
      unfold affirmType
      rcases b with _ | (i | i | i | i | i) <;>
        first
        | (rcases tail with _ | ⟨a, tl⟩
           · left
             rfl
           · right
             rfl)
        | (right; rfl)
    have hna : d = Diag.notAType → isOrderingDiag d = false := by
      intro h
      subst h
      rfl
    rcases hsnd with h | h <;> rw [h] at hd
    · simp at hd
    · simp at hd
      exact hna hd
  | list inner ih => intro d hd; exact ih d hd
  | map kt vt ihk ihv =>
    intro d hd
    unfold affirmType at hd
    cases hk : affirmType env kt with
    | mk bk dk =>
      rw [hk] at hd
      cases bk with
      | true =>
        cases hv : affirmType env vt with
        | mk bv dv =>
          rw [hv] at hd
          simp only at hd
          rcases List.mem_append.mp hd with h | h
          · exact ihk d (hk ▸ h)
          · exact ihv d (hv ▸ h)
      | false => exact ihk d (hk ▸ hd)

theorem checkNotVoid_not_ordering (env : Env) (t : TypeE) :
    ∀ d ∈ checkNotVoid env t, isOrderingDiag d = false := by
  intro d hd
  unfold checkNotVoid at hd
  split at hd
  · simp at hd
    simp [hd, isOrderingDiag]
  · simp at hd

/-- The ordering diagnostics one field/argument step emits. -/
def orderCheckDiags (kind : String) (orders : List (Int × String)) (name : String)
    (o : Option Int) : List Diag :=
  match o with
  | none => [.missingOrder kind name]
  | some ov =>
    match toI32 ov with
    | (none, ds0) => ds0
    | (some w, _) =>
      (match orders.find? (fun p => p.1 = w) with
       | some p => [.dupOrder kind name p.2]
       | none => []) ++ (if w ≤ 0 then [.nonPositiveOrder kind name] else [])

theorem checkStructFieldsGo_cons (env : Env) (orders : List (Int × String))
    (f : FieldDecl) (fs : List FieldDecl) :
    checkStructFieldsGo env orders (f :: fs) =
      orderCheckDiags "field" orders f.name f.order ++
        ((affirmType env f.type).2 ++ (checkNotVoid env f.type ++
          ((match f.defaultVal with
            | none => []
            | some d => (checkType env f.type d).2) ++
          checkStructFieldsGo env (orderStateStep orders f.name f.order) fs))) := by
  conv_lhs => rw [checkStructFieldsGo]
  unfold orderCheckDiags orderStateStep
  cases f.order with
  | none => simp
  | some ov =>
    dsimp only
    cases toI32 ov with
    | mk o2 ds =>
      cases o2 with
      | none => simp
      | some w =>
        dsimp only
        cases orders.find? (fun p => p.1 = w) with
        | none => simp
        | some p => simp

theorem checkOrderingGo_cons (kind : String) (orders : List (Int × String))
    (a : ArgDecl) (rest : List ArgDecl) :
    checkOrderingGo kind orders (a :: rest) =
      orderCheckDiags kind orders a.name a.order ++
        checkOrderingGo kind (orderStateStep orders a.name a.order) rest := by
  conv_lhs => rw [checkOrderingGo]
  unfold orderCheckDiags orderStateStep
  cases a.order with
  | none => simp
  | some ov =>
    dsimp only
    cases toI32 ov with
    | mk o2 ds =>
      cases o2 with
      | none => simp
      | some w =>
        dsimp only
        cases orders.find? (fun p => p.1 = w) with
        | none => simp
        | some p => simp

/-- Shape of the ordering-check recursions: `checkStructFieldsGo` and
`checkOrderingGo` both emit each element's ordering diagnostics, some
element-local extra diagnostics, and recurse with `orderStateStep`. -/
def OrderFoldShape {α : Type} (F : List (Int × String) → List α → List Diag)
    (kind : String) (pname : α → String) (pord : α → Option Int)
    (extra : α → List Diag) : Prop :=
  ∀ orders x xs, F orders (x :: xs) =
    orderCheckDiags kind orders (pname x) (pord x) ++ extra x ++
      F (orderStateStep orders (pname x) (pord x)) xs

theorem orderFold_missing {α : Type} {F : List (Int × String) → List α → List Diag}
    {kind : String} {pname : α → String} {pord : α → Option Int}
    {extra : α → List Diag} (hF : OrderFoldShape F kind pname pord extra) :
    ∀ (xs : List α) (orders) (x : α), x ∈ xs → pord x = none →
      Diag.missingOrder kind (pname x) ∈ F orders xs := by
  intro xs
  induction xs with
  | nil => intro orders x hx; cases hx
  | cons y ys ih =>
    intro orders x hx hord
    rw [hF]
    cases hx with
    | head =>
      refine List.mem_append_left _ (List.mem_append_left _ ?_)
      unfold orderCheckDiags
      rw [hord]
      simp
    | tail _ h =>
      exact List.mem_append_right _ (ih _ x h hord)

theorem orderFold_dup_state {α : Type} {F : List (Int × String) → List α → List Diag}
    {kind : String} {pname : α → String} {pord : α → Option Int}
    {extra : α → List Diag} (hF : OrderFoldShape F kind pname pord extra) :
    ∀ (xs : List α) (orders) (x : α) (ov : Int), x ∈ xs → pord x = some ov →
      wrap32 ov = ov → (∃ p ∈ orders, p.1 = ov) →
      ∃ n p, Diag.dupOrder kind n p ∈ F orders xs := by
  intro xs
  induction xs with
  | nil => intro orders x ov hx; cases hx
  | cons y ys ih =>
    intro orders x ov hx hord hfit hkey
    rw [hF]
    cases hx with
    | head =>
      obtain ⟨q, hq, hq1⟩ := hkey
      have hfind : orders.find? (fun p => p.1 = ov) = some
          ((orders.find? (fun p => p.1 = ov)).getD q) := by
        have : (orders.find? (fun p => p.1 = ov)).isSome := by
          rw [List.find?_isSome]
          exact ⟨q, hq, by simp [hq1]⟩
        cases hf : orders.find? (fun p => p.1 = ov) with
        | none => rw [hf] at this; cases this
        | some r => rfl
      refine ⟨pname y, ((orders.find? (fun p => p.1 = ov)).getD q).2,
        List.mem_append_left _ (List.mem_append_left _ ?_)⟩
      unfold orderCheckDiags
      rw [hord]
      dsimp only
      have htoi : toI32 ov = (some ov, []) := by
        unfold toI32
        rw [hfit]
        simp
      rw [htoi]
      dsimp only
      rw [hfind]
      simp
    | tail _ h =>
      obtain ⟨q, hq, hq1⟩ := hkey
      obtain ⟨n, p, hmem⟩ := ih (orderStateStep orders (pname y) (pord y)) x ov h hord hfit
        ⟨q, orderStateStep_mono orders (pname y) (pord y) q hq, hq1⟩
      exact ⟨n, p, List.mem_append_right _ hmem⟩

theorem orderFold_dup_pair {α : Type} {F : List (Int × String) → List α → List Diag}
    {kind : String} {pname : α → String} {pord : α → Option Int}
    {extra : α → List Diag} (hF : OrderFoldShape F kind pname pord extra) :
    ∀ (xs : List α) (orders) (i j : Nat) (x y : α) (ov : Int), i < j →
      xs.get? i = some x → xs.get? j = some y →
      pord x = some ov → pord y = some ov → wrap32 ov = ov →
      ∃ n p, Diag.dupOrder kind n p ∈ F orders xs := by
  intro xs
  induction xs with
  | nil => intro orders i j x y ov hij hx; simp at hx
  | cons z zs ih =>
    intro orders i j x y ov hij hx hy hordx hordy hfit
    match i, j with
    | 0, Nat.succ j' =>
      simp only [List.get?_cons_zero, Option.some.injEq] at hx
      subst hx
      simp only [List.get?_cons_succ] at hy
      have hymem : y ∈ zs := List.get?_mem hy
      rw [hF]
      cases hfq : orders.find? (fun p => p.1 = ov) with
      | some q =>
        refine ⟨pname z, q.2, List.mem_append_left _ (List.mem_append_left _ ?_)⟩
        unfold orderCheckDiags
        rw [hordx]
        dsimp only
        have htoi : toI32 ov = (some ov, []) := by
          unfold toI32
          rw [hfit]
          simp
        rw [htoi]
        dsimp only
        rw [hfq]
        simp
      | none =>
        have hstate : orderStateStep orders (pname z) (pord z) =
            orders ++ [(ov, pname z)] := by
          unfold orderStateStep
          rw [hordx]
          dsimp only
          have htoi : toI32 ov = (some ov, []) := by
            unfold toI32
            rw [hfit]
            simp
          rw [htoi]
          dsimp only
          rw [hfq]
        obtain ⟨n, p, hmem⟩ := orderFold_dup_state hF zs
          (orderStateStep orders (pname z) (pord z)) y ov hymem hordy hfit
          ⟨(ov, pname z), by rw [hstate]; simp, rfl⟩
        exact ⟨n, p, List.mem_append_right _ hmem⟩
    | Nat.succ i', Nat.succ j' =>
      simp only [List.get?_cons_succ] at hx hy
      obtain ⟨n, p, hmem⟩ := ih (orderStateStep orders (pname z) (pord z)) i' j' x y ov
        (by omega) hx hy hordx hordy hfit
      rw [hF]
      exact ⟨n, p, List.mem_append_right _ hmem⟩

theorem orderFold_nonpos {α : Type} {F : List (Int × String) → List α → List Diag}
    {kind : String} {pname : α → String} {pord : α → Option Int}
    {extra : α → List Diag} (hF : OrderFoldShape F kind pname pord extra) :
    ∀ (xs : List α) (orders) (x : α) (ov : Int), x ∈ xs → pord x = some ov → ov ≤ 0 →
      (wrap32 ov = ov → Diag.nonPositiveOrder kind (pname x) ∈ F orders xs) ∧
      (wrap32 ov ≠ ov → Diag.i32Range ov ∈ F orders xs) := by
  intro xs
  induction xs with
  | nil => intro orders x ov hx; cases hx
  | cons y ys ih =>
    intro orders x ov hx hord hle
    cases hx with
    | head =>
      constructor
      · intro hfit
        rw [hF]
        refine List.mem_append_left _ (List.mem_append_left _ ?_)
        unfold orderCheckDiags
        rw [hord]
        dsimp only
        have htoi : toI32 ov = (some ov, []) := by
          unfold toI32
          rw [hfit]
          simp
        rw [htoi]
        dsimp only
        refine List.mem_append_right _ ?_
        rw [if_pos hle]
        simp
      · intro hnof
        rw [hF]
        refine List.mem_append_left _ (List.mem_append_left _ ?_)
        unfold orderCheckDiags
        rw [hord]
        dsimp only
        have htoi : toI32 ov = (none, [.i32Range ov]) := by
          unfold toI32
          simp only
          rw [if_neg hnof]
        rw [htoi]
        simp
    | tail _ h =>
      have := ih (orderStateStep orders (pname y) (pord y)) x ov h hord hle
      constructor
      · intro hfit
        rw [hF]
        exact List.mem_append_right _ (this.1 hfit)
      · intro hnof
        rw [hF]
        exact List.mem_append_right _ (this.2 hnof)

theorem orderFold_clean {α : Type} {F : List (Int × String) → List α → List Diag}
    {kind : String} {pname : α → String} {pord : α → Option Int}
    {extra : α → List Diag} (hF : OrderFoldShape F kind pname pord extra)
    (hF0 : ∀ orders, F orders [] = []) :
    ∀ (xs : List α) (orders),
      (∀ x ∈ xs, ∀ d ∈ extra x, isOrderingDiag d = false) →
      (∀ x ∈ xs, ∃ ov, pord x = some ov ∧ wrap32 ov = ov ∧ 0 < ov) →
      List.Pairwise (fun x y => ∀ a b, pord x = some a → pord y = some b → a ≠ b) xs →
      (∀ x ∈ xs, ∀ a, pord x = some a → ∀ p ∈ orders, p.1 ≠ a) →
      ∀ d ∈ F orders xs, isOrderingDiag d = false := by
  intro xs
  induction xs with
  | nil => intro orders _ _ _ _ d hd; rw [hF0] at hd; cases hd
  | cons z zs ih =>
    intro orders hextra hords hpw hstate d hd
    obtain ⟨ov, hord, hfit, hpos⟩ := hords z (by simp)
    have htoi : toI32 ov = (some ov, []) := by
      unfold toI32
      rw [hfit]
      simp
    have hfind : orders.find? (fun p => p.1 = ov) = none := by
      rw [List.find?_eq_none]
      intro p hp
      simp only [decide_eq_true_eq]
      exact hstate z (by simp) ov hord p hp
    have hocd : orderCheckDiags kind orders (pname z) (pord z) = [] := by
      unfold orderCheckDiags
      rw [hord]
      dsimp only
      rw [htoi]
      dsimp only
      rw [hfind, if_neg (by omega)]
      simp
    have hstep : orderStateStep orders (pname z) (pord z) = orders ++ [(ov, pname z)] := by
      unfold orderStateStep
      rw [hord]
      dsimp only
      rw [htoi]
      dsimp only
      rw [hfind]
    rw [hF, hocd] at hd
    simp only [List.nil_append] at hd
    rcases List.mem_append.mp hd with h | h
    · exact hextra z (by simp) d h
    · refine ih (orderStateStep orders (pname z) (pord z))
        (fun x hx => hextra x (List.mem_cons_of_mem _ hx))
        (fun x hx => hords x (List.mem_cons_of_mem _ hx))
        (List.Pairwise.sublist (List.sublist_cons_self z zs) hpw) ?_ d h
      intro x hx a hax p hp
      rw [hstep] at hp
      rcases List.mem_append.mp hp with hp1 | hp1
      · exact hstate x (List.mem_cons_of_mem _ hx) a hax p hp1
      · simp only [List.mem_singleton] at hp1
        subst hp1
        simp only
        have := (List.pairwise_cons.mp hpw).1 x hx ov a hord hax
        omega

theorem checkStructFieldsGo_shape (env : Env) :
    OrderFoldShape (fun orders fields => checkStructFieldsGo env orders fields) "field"
      (fun f => f.name) (fun f => f.order)
      (fun f => (affirmType env f.type).2 ++ checkNotVoid env f.type ++
        (match f.defaultVal with
         | none => []
         | some d => (checkType env f.type d).2)) := by
  intro orders x xs
  dsimp only
  rw [checkStructFieldsGo_cons]
  simp [List.append_assoc]

theorem checkOrderingGo_shape (kind : String) :
    OrderFoldShape (checkOrderingGo kind) kind (fun a => a.name) (fun a => a.order)
      (fun _ => []) := by
  intro orders x xs
  dsimp only
  rw [checkOrderingGo_cons]
  simp

/-- C3 (amended): a missing order number is an error; two entries of the same
field list (or the same argument/throws list) carrying equal order numbers
that are representable in 32 bits are reported as a duplicate-ordering error;
a zero-or-negative order is reported (as the positivity error when it is
32-bit representable, as the range error otherwise); and a struct or
argument list whose entries all carry distinct positive 32-bit-representable
orders (and, for struct fields, no default initializers) produces no ordering
diagnostic.  Orders outside 32-bit range receive only the range error and are
excluded from the duplicate and positivity checks. -/
theorem ordering_checks :
    (∀ (env : Env) (node : StructDecl) (f : FieldDecl), f ∈ node.fields →
      f.order = none → Diag.missingOrder "field" f.name ∈ checkStruct env node) ∧
    (∀ (env : Env) (node : StructDecl) (i j : Nat) (f g : FieldDecl) (ov : Int),
      i < j → node.fields.get? i = some f → node.fields.get? j = some g →
      f.order = some ov → g.order = some ov → wrap32 ov = ov →
      ∃ n p, Diag.dupOrder "field" n p ∈ checkStruct env node) ∧
    (∀ (env : Env) (node : StructDecl) (f : FieldDecl) (ov : Int), f ∈ node.fields →
      f.order = some ov → ov ≤ 0 →
      (wrap32 ov = ov → Diag.nonPositiveOrder "field" f.name ∈ checkStruct env node) ∧
      (wrap32 ov ≠ ov → Diag.i32Range ov ∈ checkStruct env node)) ∧
    (∀ (env : Env) (node : StructDecl),
      (∀ f ∈ node.fields, f.defaultVal = none) →
      (∀ f ∈ node.fields, ∃ ov, f.order = some ov ∧ wrap32 ov = ov ∧ 0 < ov) →
      List.Pairwise
        (fun f g : FieldDecl => ∀ a b, f.order = some a → g.order = some b → a ≠ b)
        node.fields →
      ∀ d ∈ checkStruct env node, isOrderingDiag d = false) ∧
    (∀ (kind : String) (args : List ArgDecl) (a : ArgDecl), a ∈ args →
      a.order = none → Diag.missingOrder kind a.name ∈ checkOrdering args kind) ∧
    (∀ (kind : String) (args : List ArgDecl) (i j : Nat) (a b : ArgDecl) (ov : Int),
      i < j → args.get? i = some a → args.get? j = some b →
      a.order = some ov → b.order = some ov → wrap32 ov = ov →
      ∃ n p, Diag.dupOrder kind n p ∈ checkOrdering args kind) ∧
    (∀ (kind : String) (args : List ArgDecl) (a : ArgDecl) (ov : Int), a ∈ args →
      a.order = some ov → ov ≤ 0 →
      (wrap32 ov = ov → Diag.nonPositiveOrder kind a.name ∈ checkOrdering args kind) ∧
      (wrap32 ov ≠ ov → Diag.i32Range ov ∈ checkOrdering args kind)) ∧
    (∀ (kind : String) (args : List ArgDecl),
      (∀ a ∈ args, ∃ ov, a.order = some ov ∧ wrap32 ov = ov ∧ 0 < ov) →
      List.Pairwise
        (fun a b : ArgDecl => ∀ x y, a.order = some x → b.order = some y → x ≠ y)
        args →
      ∀ d ∈ checkOrdering args kind, isOrderingDiag d = false) := by
  refine ⟨?_, ?_, ?_, ?_, ?_, ?_, ?_, ?_⟩
  · intro env node f hf hord
    exact orderFold_missing (checkStructFieldsGo_shape env) node.fields [] f hf hord
  · intro env node i j f g ov hij hf hg hordf hordg hfit
    exact orderFold_dup_pair (checkStructFieldsGo_shape env) node.fields [] i j f g ov
      hij hf hg hordf hordg hfit
  · intro env node f ov hf hord hle
    exact orderFold_nonpos (checkStructFieldsGo_shape env) node.fields [] f ov hf hord hle
  · intro env node hdef hords hpw
    refine orderFold_clean (checkStructFieldsGo_shape env) (fun _ => rfl) node.fields []
      ?_ hords hpw (by intro x hx a hax p hp; cases hp)
    intro x hx d hd
    rw [hdef x hx] at hd
    simp only [List.append_nil] at hd
    rcases List.mem_append.mp hd with h | h
    · exact affirmType_not_ordering env x.type d h
    · exact checkNotVoid_not_ordering env x.type d h
  · intro kind args a ha hord
    exact orderFold_missing (checkOrderingGo_shape kind) args [] a ha hord
  · intro kind args i j a b ov hij ha hb horda hordb hfit
    exact orderFold_dup_pair (checkOrderingGo_shape kind) args [] i j a b ov
      hij ha hb horda hordb hfit
  · intro kind args a ov ha hord hle
    exact orderFold_nonpos (checkOrderingGo_shape kind) args [] a ov ha hord hle
  · intro kind args hords hpw
    exact orderFold_clean (checkOrderingGo_shape kind) (fun _ => rfl) args []
      (by intro x hx d hd; cases hd) hords hpw
      (by intro x hx a hax p hp; cases hp)

/-- A struct whose two fields both carry the explicit order `2^32 + 7`. -/
def cexStruct : StructDecl :=
  ⟨.structKw, "C",
    [⟨some (2 ^ 32 + 7), some .required, .builtin .i32, "a", none⟩,
     ⟨some (2 ^ 32 + 7), some .required, .builtin .i32, "b", none⟩]⟩

/-- An empty arena. -/
def emptyEnv : Env := ⟨[], [], [], []⟩

/-- C3 counterexample: two fields carrying the equal positive order number
`2^32 + 7` produce two range errors but no duplicate-ordering error, because
`toI32` fails on both orders and the duplicate check is skipped. -/
theorem checkStruct_order_dup_counterexample :
    checkStruct emptyEnv cexStruct =
      [.i32Range (2 ^ 32 + 7), .i32Range (2 ^ 32 + 7)] ∧
    cexStruct.fields.map (·.order) = [some (2 ^ 32 + 7), some (2 ^ 32 + 7)] ∧
    (0 : Int) < 2 ^ 32 + 7 ∧
    ∀ d ∈ checkStruct emptyEnv cexStruct, ∀ k n p, d ≠ Diag.dupOrder k n p := by
  have heval : checkStruct emptyEnv cexStruct =
      [.i32Range (2 ^ 32 + 7), .i32Range (2 ^ 32 + 7)] := by
    rfl
  refine ⟨heval, rfl, by norm_num, ?_⟩
  intro d hd k n p
  rw [heval] at hd
  rcases List.mem_cons.mp hd with h | h
  · subst h
    simp
  · rcases List.mem_cons.mp h with h1 | h1
    · subst h1
      simp
    · cases h1

/-- Witness for the C3 theorem at concrete structs: a field with no order
token is reported, and the two distinct positive in-range orders of `Point`
produce no ordering diagnostic. -/
theorem ordering_checks_witness :
    Diag.missingOrder "field" "q" ∈
      checkStruct emptyEnv ⟨.structKw, "Q", [⟨none, none, .builtin .i32, "q", none⟩]⟩ ∧
    ∀ d ∈ checkStruct pointEnv pointStruct, isOrderingDiag d = false := by
  constructor
  · exact ordering_checks.1 emptyEnv
      ⟨.structKw, "Q", [⟨none, none, .builtin .i32, "q", none⟩]⟩
      ⟨none, none, .builtin .i32, "q", none⟩ (List.Mem.head _) rfl
  · refine ordering_checks.2.2.2.1 pointEnv pointStruct ?_ ?_ ?_
    · intro f hf
      cases hf with
      | head => rfl
      | tail _ h =>
        cases h with
        | head => rfl
        | tail _ h2 => cases h2
    · intro f hf
      cases hf with
      | head => exact ⟨1, rfl, by decide, by norm_num⟩
      | tail _ h =>
        cases h with
        | head => exact ⟨2, rfl, by decide, by norm_num⟩
        | tail _ h2 => cases h2
    · refine List.Pairwise.cons ?_ (List.Pairwise.cons ?_ List.Pairwise.nil)
      · intro g hg a b ha hb
        cases hg with
        | head =>
          simp only [Option.some.injEq] at ha hb
          omega
        | tail _ h2 => cases h2
      · intro g hg
        cases hg

/-! ## C6: void usage -/

theorem affirmType_mem_eq (env : Env) :
    ∀ t, ∀ d ∈ (affirmType env t).2, d = Diag.notAType := by
  intro t
  induction t with
  | builtin k => intro d hd; simp [affirmType] at hd
  | named b tail =>
    intro d hd
    have hsnd : (affirmType env (.named b tail)).2 = [] ∨
        (affirmType env (.named b tail)).2 = [Diag.notAType] := by
      unfold affirmType
      rcases b with _ | (i | i | i | i | i) <;>
        first
        | (rcases tail with _ | ⟨a, tl⟩
           · left
             rfl
           · right
             rfl)
        | (right; rfl)
    rcases hsnd with h | h <;> rw [h] at hd
    · cases hd
    · simpa using hd
  | list inner ih => intro d hd; exact ih d hd
  | map kt vt ihk ihv =>
    intro d hd
    unfold affirmType at hd
    cases hk : affirmType env kt with
    | mk bk dk =>
      rw [hk] at hd
      cases bk with
      | true =>
        cases hv : affirmType env vt with
        | mk bv dv =>
          rw [hv] at hd
          simp only at hd
          rcases List.mem_append.mp hd with h | h
          · exact ihk d (hk ▸ h)
          · exact ihv d (hv ▸ h)
      | false => exact ihk d (hk ▸ hd)

theorem toI32_eq (v : Int) :
    toI32 v = if wrap32 v = v then (some v, []) else (none, [.i32Range v]) := by
  unfold toI32
  by_cases h : wrap32 v = v
  · simp [h]
  · simp [h]

theorem orderCheckDiags_ordering (kind : String) (orders : List (Int × String))
    (name : String) (o : Option Int) :
    ∀ d ∈ orderCheckDiags kind orders name o, isOrderingDiag d = true := by
  intro d hd
  unfold orderCheckDiags at hd
  cases o with
  | none =>
    simp only [List.mem_singleton] at hd
    subst hd
    rfl
  | some ov =>
    dsimp only at hd
    cases htr : toI32 ov with
    | mk o2 ds =>
      rw [htr] at hd
      cases o2 with
      | none =>
        have : ds = [Diag.i32Range ov] ∨ ds = [] := by
          rw [toI32_eq] at htr
          split at htr
          · simp at htr
          · simp only [Prod.mk.injEq] at htr
            exact Or.inl htr.2.symm
        rcases this with h | h <;> rw [h] at hd
        · simp only [List.mem_singleton] at hd
          subst hd
          rfl
        · cases hd
      | some w =>
        dsimp only at hd
        rcases List.mem_append.mp hd with h | h
        · cases hfind : orders.find? (fun p => p.1 = w) with
          | none => rw [hfind] at h; cases h
          | some p =>
            rw [hfind] at h
            simp only [List.mem_singleton] at h
            subst h
            rfl
        · split at h
          · simp only [List.mem_singleton] at h
            subst h
            rfl
          · cases h

theorem checkNotVoid_eq_nil (env : Env) (t : TypeE)
    (h : ∀ br, resolveD env t ≠ some (.builtin .void, br)) :
    checkNotVoid env t = [] := by
  unfold checkNotVoid
  split
  · rename_i br heq
    exact absurd heq (h br)
  · rfl

theorem checkNotVoid_eq_void (env : Env) (t : TypeE) (br : Option BindingRef)
    (h : resolveD env t = some (.builtin .void, br)) :
    checkNotVoid env t = [Diag.voidMisuse] := by
  unfold checkNotVoid
  rw [h]

theorem checkStructFieldsGo_void_mem (env : Env) :
    ∀ (fields : List FieldDecl) (orders : List (Int × String)) (f : FieldDecl)
      (br : Option BindingRef),
      f ∈ fields → resolveD env f.type = some (.builtin .void, br) →
      Diag.voidMisuse ∈ checkStructFieldsGo env orders fields := by
  intro fields
  induction fields with
  | nil => intro orders f br hf; cases hf
  | cons g fs ih =>
    intro orders f br hf hres
    rw [checkStructFieldsGo_cons]
    cases hf with
    | head =>
      refine List.mem_append_right _ (List.mem_append_right _ (List.mem_append_left _ ?_))
      rw [checkNotVoid_eq_void env g.type br hres]
      simp
    | tail _ h =>
      refine List.mem_append_right _ (List.mem_append_right _ (List.mem_append_right _
        (List.mem_append_right _ ?_)))
      exact ih _ f br h hres

theorem checkStructFieldsGo_void_not_mem (env : Env) :
    ∀ (fields : List FieldDecl) (orders : List (Int × String)),
      (∀ f ∈ fields, f.defaultVal = none) →
      (∀ f ∈ fields, ∀ br, resolveD env f.type ≠ some (.builtin .void, br)) →
      Diag.voidMisuse ∉ checkStructFieldsGo env orders fields := by
  intro fields
  induction fields with
  | nil => intro orders _ _ h; cases h
  | cons g fs ih =>
    intro orders hdef hres hmem
    rw [checkStructFieldsGo_cons] at hmem
    rcases List.mem_append.mp hmem with h | h
    · have := orderCheckDiags_ordering "field" orders g.name g.order _ h
      simp [isOrderingDiag] at this
    · rcases List.mem_append.mp h with h1 | h1
      · have := affirmType_mem_eq env g.type _ h1
        cases this
      · rcases List.mem_append.mp h1 with h2 | h2
        · rw [checkNotVoid_eq_nil env g.type (hres g (by simp))] at h2
          cases h2
        · rcases List.mem_append.mp h2 with h3 | h3
          · rw [hdef g (by simp)] at h3
            cases h3
          · exact ih _ (fun f hf => hdef f (List.mem_cons_of_mem _ hf))
              (fun f hf => hres f (List.mem_cons_of_mem _ hf)) h3

theorem checkOrderingGo_all_ordering (kind : String) :
    ∀ (args : List ArgDecl) (orders : List (Int × String)),
      ∀ d ∈ checkOrderingGo kind orders args, isOrderingDiag d = true := by
  intro args
  induction args with
  | nil => intro orders d hd; cases hd
  | cons a rest ih =>
    intro orders d hd
    rw [checkOrderingGo_cons] at hd
    rcases List.mem_append.mp hd with h | h
    · exact orderCheckDiags_ordering kind orders a.name a.order d h
    · exact ih _ d h

theorem checkThrowsEntry_mem (env : Env) (t : ArgDecl) :
    ∀ d ∈ checkThrowsEntry env t,
      d = .notAType ∨ d = .notExceptionType ∨ d = .notExceptionNode := by
  intro d hd
  unfold checkThrowsEntry at hd
  cases ha : affirmType env t.type with
  | mk ab ads =>
    rw [ha] at hd
    cases ab with
    | false =>
      exact Or.inl (affirmType_mem_eq env t.type d (ha ▸ hd))
    | true =>
      rcases List.mem_append.mp hd with h | h
      · exact Or.inl (affirmType_mem_eq env t.type d (ha ▸ h))
      · cases hres : resolveD env t.type with
        | none => rw [hres] at h; cases h
        | some pr =>
          obtain ⟨rt, rb⟩ := pr
          rw [hres] at h
          cases rb with
          | none =>
            simp only [List.mem_singleton] at h
            exact Or.inr (Or.inl h)
          | some b =>
            cases b with
            | stru i =>
              dsimp only at h
              cases hg : env.structs.get? i with
              | none => rw [hg] at h; cases h
              | some dstru =>
                rw [hg] at h
                dsimp only at h
                by_cases he : dstru.tok = .exceptionKw
                · rw [if_pos he] at h
                  cases h
                · rw [if_neg he] at h
                  simp only [List.mem_singleton] at h
                  exact Or.inr (Or.inr h)
            | enum i => simp only [List.mem_singleton] at h; exact Or.inr (Or.inr h)
            | tdef i => simp only [List.mem_singleton] at h; exact Or.inr (Or.inr h)
            | service i => simp only [List.mem_singleton] at h; exact Or.inr (Or.inr h)
            | constant i => simp only [List.mem_singleton] at h; exact Or.inr (Or.inr h)

theorem checkMethod_void_mem (env : Env) (m : MethodDecl) (a : ArgDecl)
    (br : Option BindingRef) (ha : a ∈ m.args)
    (hres : resolveD env a.type = some (.builtin .void, br)) :
    Diag.voidMisuse ∈ checkMethod env m := by
  unfold checkMethod
  refine List.mem_append_left _ (List.mem_append_left _ (List.mem_append_left _
    (List.mem_append_right _ ?_)))
  rw [List.mem_flatten]
  refine ⟨(affirmType env a.type).2 ++ checkNotVoid env a.type, List.mem_map.mpr ⟨a, ha, rfl⟩, ?_⟩
  refine List.mem_append_right _ ?_
  rw [checkNotVoid_eq_void env a.type br hres]
  simp

theorem checkMethod_void_not_mem (env : Env) (m : MethodDecl)
    (hres : ∀ a ∈ m.args, ∀ br, resolveD env a.type ≠ some (.builtin .void, br)) :
    Diag.voidMisuse ∉ checkMethod env m := by
  intro hmem
  unfold checkMethod at hmem
  rcases List.mem_append.mp hmem with h | h
  · rcases List.mem_append.mp h with h1 | h1
    · rcases List.mem_append.mp h1 with h2 | h2
      · rcases List.mem_append.mp h2 with h3 | h3
        · cases affirmType_mem_eq env m.returnType _ h3
        · rcases List.mem_flatten.mp h3 with ⟨l, hl, hdl⟩
          rcases List.mem_map.mp hl with ⟨a, ha, rfl⟩
          rcases List.mem_append.mp hdl with h4 | h4
          · cases affirmType_mem_eq env a.type _ h4
          · rw [checkNotVoid_eq_nil env a.type (hres a ha)] at h4
            cases h4
      · have := checkOrderingGo_all_ordering "argument" m.args [] _ h2
        simp [isOrderingDiag] at this
    · rcases List.mem_flatten.mp h1 with ⟨l, hl, hdl⟩
      rcases List.mem_map.mp hl with ⟨t, ht, rfl⟩
      rcases checkThrowsEntry_mem env t _ hdl with h4 | h4 | h4 <;> cases h4
  · have := checkOrderingGo_all_ordering "exception" m.throws [] _ h
    simp [isOrderingDiag] at this

theorem checkService_extends_diags (node : ServiceDecl) :
    ∀ d ∈ (match node.extendsRef with
      | none => ([] : List Diag)
      | some ext =>
        match ext.binding with
        | some (.service _) =>
          if ext.tail.isEmpty then [] else [.notService ext.pathStr]
        | _ => [.notService ext.pathStr]),
      ∃ n, d = Diag.notService n := by
  intro d hd
  rcases hext : node.extendsRef with _ | ext
  · rw [hext] at hd
    cases hd
  · rw [hext] at hd
    dsimp only at hd
    cases hb : ext.binding with
    | none =>
      rw [hb] at hd
      simp only [List.mem_singleton] at hd
      exact ⟨ext.pathStr, hd⟩
    | some b =>
      rw [hb] at hd
      cases b with
      | service i =>
        dsimp only at hd
        by_cases he : ext.tail.isEmpty
        · rw [if_pos he] at hd
          cases hd
        · rw [if_neg he] at hd
          simp only [List.mem_singleton] at hd
          exact ⟨ext.pathStr, hd⟩
      | stru i => simp only [List.mem_singleton] at hd; exact ⟨ext.pathStr, hd⟩
      | enum i => simp only [List.mem_singleton] at hd; exact ⟨ext.pathStr, hd⟩
      | tdef i => simp only [List.mem_singleton] at hd; exact ⟨ext.pathStr, hd⟩
      | constant i => simp only [List.mem_singleton] at hd; exact ⟨ext.pathStr, hd⟩

/-- C6 counterexample: a struct field of type `list<void>` (void nested in a
container) produces no diagnostic at all — in particular no void-misuse
error — although the claim requires one for any type containing void. -/
theorem nested_void_not_reported :
    checkStruct emptyEnv
      ⟨.structKw, "V", [⟨some 1, some .required, .list (.builtin .void), "x", none⟩]⟩ = [] := by
  rfl

/-- C6 (amended): the type checker reports a void-misuse diagnostic exactly
for struct field types and service method argument types that are themselves
the builtin void after unwrapping top-level typedefs; void nested inside
list/map types is not detected, and a void method return type never produces
a void-misuse diagnostic (field defaults are assumed absent in the
only-if directions, as a default initializer cannot produce this
diagnostic). -/
theorem void_usage_checks :
    (∀ (env : Env) (node : StructDecl) (f : FieldDecl) (br : Option BindingRef),
      f ∈ node.fields → resolveD env f.type = some (.builtin .void, br) →
      Diag.voidMisuse ∈ checkStruct env node) ∧
    (∀ (env : Env) (node : StructDecl),
      (∀ f ∈ node.fields, f.defaultVal = none) →
      (∀ f ∈ node.fields, ∀ br, resolveD env f.type ≠ some (.builtin .void, br)) →
      Diag.voidMisuse ∉ checkStruct env node) ∧
    (∀ (env : Env) (node : ServiceDecl) (m : MethodDecl) (a : ArgDecl)
        (br : Option BindingRef),
      m ∈ node.methods → a ∈ m.args →
      resolveD env a.type = some (.builtin .void, br) →
      Diag.voidMisuse ∈ checkService env node) ∧
    (∀ (env : Env) (node : ServiceDecl),
      (∀ m ∈ node.methods, ∀ a ∈ m.args, ∀ br,
        resolveD env a.type ≠ some (.builtin .void, br)) →
      Diag.voidMisuse ∉ checkService env node) := by
  refine ⟨?_, ?_, ?_, ?_⟩
  · intro env node f br hf hres
    exact checkStructFieldsGo_void_mem env node.fields [] f br hf hres
  · intro env node hdef hres
    exact checkStructFieldsGo_void_not_mem env node.fields [] hdef hres
  · intro env node m a br hm ha hres
    unfold checkService
    refine List.mem_append_right _ ?_
    rw [List.mem_flatten]
    exact ⟨checkMethod env m, List.mem_map.mpr ⟨m, hm, rfl⟩,
      checkMethod_void_mem env m a br ha hres⟩
  · intro env node hres hmem
    unfold checkService at hmem
    rcases List.mem_append.mp hmem with h | h
    · obtain ⟨n, hn⟩ := checkService_extends_diags node _ h
      cases hn
    · rcases List.mem_flatten.mp h with ⟨l, hl, hdl⟩
      rcases List.mem_map.mp hl with ⟨m, hm, rfl⟩
      exact checkMethod_void_not_mem env m (hres m hm) hdl

/-- Witness for C6: a field whose type is void itself is reported, and a
method whose return type is void (with no arguments) yields no void-misuse
diagnostic. -/
theorem void_usage_checks_witness :
    Diag.voidMisuse ∈ checkStruct emptyEnv
      ⟨.structKw, "W", [⟨some 1, some .required, .builtin .void, "x", none⟩]⟩ ∧
    Diag.voidMisuse ∉ checkService emptyEnv
      ⟨"Svc", none, [⟨false, .builtin .void, "ping", [], []⟩]⟩ := by
  constructor
  · exact void_usage_checks.1 emptyEnv
      ⟨.structKw, "W", [⟨some 1, some .required, .builtin .void, "x", none⟩]⟩
      ⟨some 1, some .required, .builtin .void, "x", none⟩ none (List.Mem.head _) rfl
  · exact void_usage_checks.2.2.2 emptyEnv
      ⟨"Svc", none, [⟨false, .builtin .void, "ping", [], []⟩]⟩
      (by
        intro m hm a ha
        cases hm with
        | head => cases ha
        | tail _ h => cases h)

/-! ## Cyclic checks (sema/cyclic_checks.go) -/

/-- Outcome of the service extends-chain walk.  `panicked` renders the failed
Go type assertion `node.Extends.Binding.(*ServiceNode)`; `fuelOut` renders
divergence of the unbounded Go loop. -/
inductive WalkResult where
  | ok | cyclic | panicked | fuelOut
  deriving DecidableEq, Repr

/-- The loop of `checkCyclicService`: compare the current parent against the
origin, then follow its extends link. -/
def chaseFuel (env : Env) : Nat → Nat → Nat → WalkResult
  | 0, _, _ => .fuelOut
  | fuel + 1, origin, parent =>
    if parent = origin then .cyclic
    else
      match env.services.get? parent with
      | none => .panicked
      | some p =>
        match p.extendsRef with
        | none => .ok
        | some ext =>
          match ext.binding with
          | some (.service q) => chaseFuel env fuel origin q
          | _ => .panicked

/-- `CyclicChecker.checkCyclicService`. -/
def checkCyclicService (env : Env) (fuel : Nat) (origin : Nat) : WalkResult :=
  match env.services.get? origin with
  | none => .panicked
  | some s =>
    match s.extendsRef with
    | none => .ok
    | some ext =>
      match ext.binding with
      | some (.service p) => chaseFuel env fuel origin p
      | _ => .panicked

/-- The extends link as a partial successor function on service indices. -/
def extNext (env : Env) (i : Nat) : Option Nat :=
  match env.services.get? i with
  | some s =>
    match s.extendsRef with
    | some ext =>
      match ext.binding with
      | some (.service q) => some q
      | _ => none
    | none => none
  | none => none

/-- Iterating the extends link `k` times. -/
def extIter (env : Env) : Nat → Nat → Option Nat
  | 0, i => some i
  | k + 1, i =>
    match extNext env i with
    | some q => extIter env k q
    | none => none

/-- A forest that passed name binding and type checking: every service's
extends clause, when present, is bound to a service inside the arena with no
trailing path components. -/
def WellBound (env : Env) : Prop :=
  ∀ i s, env.services.get? i = some s →
    s.extendsRef = none ∨
      ∃ ext q, s.extendsRef = some ext ∧ ext.binding = some (.service q) ∧
        q < env.services.length

theorem extNext_lt {env : Env} (hwb : WellBound env) {i q : Nat}
    (h : extNext env i = some q) : q < env.services.length := by
  unfold extNext at h
  cases hg : env.services.get? i with
  | none => rw [hg] at h; cases h
  | some s =>
    rw [hg] at h
    dsimp only at h
    rcases hwb i s hg with h1 | ⟨ext, q2, hext, hb, hlt⟩
    · rw [h1] at h
      cases h
    · rw [hext] at h
      dsimp only at h
      rw [hb] at h
      simp only [Option.some.injEq] at h
      subst h
      exact hlt

theorem chase_step_eq {env : Env} (hwb : WellBound env) {parent q : Nat}
    (f origin : Nat) (hpo : parent ≠ origin)
    (hs : ∃ s, env.services.get? parent = some s)
    (hnx : extNext env parent = some q) :
    chaseFuel env (f + 1) origin parent = chaseFuel env f origin q := by
  obtain ⟨s, hs⟩ := hs
  rw [chaseFuel, if_neg hpo, hs]
  dsimp only
  unfold extNext at hnx
  rw [hs] at hnx
  dsimp only at hnx
  rcases hwb parent s hs with h1 | ⟨ext, q2, hext, hb, _⟩
  · rw [h1] at hnx
    cases hnx
  · rw [hext] at hnx ⊢
    dsimp only at hnx ⊢
    rw [hb] at hnx ⊢
    simp only [Option.some.injEq] at hnx
    subst hnx
    rfl

theorem chase_reach_origin {env : Env} (hwb : WellBound env) (origin : Nat) :
    ∀ (k : Nat) (parent : Nat) (fuel : Nat), parent < env.services.length →
      extIter env k parent = some origin → k < fuel →
      chaseFuel env fuel origin parent = .cyclic := by
  intro k
  induction k with
  | zero =>
    intro parent fuel hlt hiter hfuel
    simp only [extIter, Option.some.injEq] at hiter
    subst hiter
    match fuel, hfuel with
    | f + 1, _ =>
      rw [chaseFuel, if_pos rfl]
  | succ k ih =>
    intro parent fuel hlt hiter hfuel
    match fuel, hfuel with
    | f + 1, hfuel =>
      by_cases hpo : parent = origin
      · rw [chaseFuel, if_pos hpo]
      · simp only [extIter] at hiter
        cases hnx : extNext env parent with
        | none => rw [hnx] at hiter; cases hiter
        | some q =>
          rw [hnx] at hiter
          have hq : q < env.services.length := extNext_lt hwb hnx
          rw [chase_step_eq hwb f origin hpo ⟨_, List.get?_eq_get hlt⟩ hnx]
          exact ih q f hq hiter (by omega)

theorem extNext_none_extendsRef {env : Env} (hwb : WellBound env) {s0 : Nat}
    {decl : ServiceDecl} (hget : env.services.get? s0 = some decl)
    (h : extNext env s0 = none) : decl.extendsRef = none := by
  rcases hwb s0 decl hget with h1 | ⟨ext, q, hext, hb, _⟩
  · exact h1
  · exfalso
    unfold extNext at h
    rw [hget] at h
    dsimp only at h
    rw [hext] at h
    dsimp only at h
    rw [hb] at h
    cases h

theorem chase_reach_end {env : Env} (hwb : WellBound env) (origin : Nat) :
    ∀ (k : Nat) (parent : Nat) (fuel : Nat) (s : Nat), parent < env.services.length →
      extIter env k parent = some s → extNext env s = none →
      (∀ j, j ≤ k → extIter env j parent ≠ some origin) →
      k < fuel → chaseFuel env fuel origin parent = .ok := by
  intro k
  induction k with
  | zero =>
    intro parent fuel s hlt hiter hend hno hfuel
    simp only [extIter, Option.some.injEq] at hiter
    subst hiter
    have hpo : parent ≠ origin := by
      intro h
      exact hno 0 (by omega) (by simp [extIter, h])
    match fuel, hfuel with
    | f + 1, _ =>
      have hget := List.get?_eq_get hlt
      rw [chaseFuel, if_neg hpo, hget]
      dsimp only
      rw [extNext_none_extendsRef hwb hget hend]
  | succ k ih =>
    intro parent fuel s hlt hiter hend hno hfuel
    have hpo : parent ≠ origin := by
      intro h
      exact hno 0 (by omega) (by simp [extIter, h])
    simp only [extIter] at hiter
    cases hnx : extNext env parent with
    | none => rw [hnx] at hiter; cases hiter
    | some q =>
      rw [hnx] at hiter
      have hq : q < env.services.length := extNext_lt hwb hnx
      match fuel, hfuel with
      | f + 1, hfuel =>
        rw [chase_step_eq hwb f origin hpo ⟨_, List.get?_eq_get hlt⟩ hnx]
        refine ih q f s hq hiter hend ?_ (by omega)
        intro j hj hcon
        refine hno (j + 1) (by omega) ?_
        simp only [extIter, hnx]
        exact hcon

theorem checkCyclicService_none {env : Env} (hwb : WellBound env) {origin : Nat}
    (hlt : origin < env.services.length) (h : extNext env origin = none) (fuel : Nat) :
    checkCyclicService env fuel origin = .ok := by
  have hget := List.get?_eq_get hlt
  unfold checkCyclicService
  rw [hget]
  dsimp only
  rw [extNext_none_extendsRef hwb hget h]

theorem checkCyclicService_chase {env : Env} (hwb : WellBound env) {origin p : Nat}
    (hlt : origin < env.services.length) (h : extNext env origin = some p) (fuel : Nat) :
    checkCyclicService env fuel origin = chaseFuel env fuel origin p := by
  have hget := List.get?_eq_get hlt
  unfold checkCyclicService
  rw [hget]
  dsimp only
  unfold extNext at h
  rw [hget] at h
  dsimp only at h
  rcases hwb origin _ hget with h1 | ⟨ext, q, hext, hb, _⟩
  · rw [h1] at h
    cases h
  · rw [hext] at h ⊢
    dsimp only at h ⊢
    rw [hb] at h ⊢
    simp only [Option.some.injEq] at h
    subst h
    rfl

/-- C4: in a forest that passed binding and type checking, a service whose
extends chain returns to itself after `k ≥ 1` steps is reported cyclic by
`checkCyclicService` (given at least `k` steps of fuel, mirroring the
unbounded Go loop), and a service whose chain reaches a service with no
extends clause without ever returning to the origin is accepted. -/
theorem checkCyclicService_spec :
    (∀ (env : Env) (origin k : Nat), WellBound env → origin < env.services.length →
      1 ≤ k → extIter env k origin = some origin →
      ∀ fuel, k ≤ fuel → checkCyclicService env fuel origin = .cyclic) ∧
    (∀ (env : Env) (origin k s : Nat), WellBound env → origin < env.services.length →
      extIter env k origin = some s → extNext env s = none →
      (∀ j, 1 ≤ j → j ≤ k → extIter env j origin ≠ some origin) →
      ∀ fuel, k ≤ fuel → checkCyclicService env fuel origin = .ok) := by
  constructor
  · intro env origin k hwb hlt hk hiter fuel hfuel
    match k, hk with
    | k' + 1, _ =>
      simp only [extIter] at hiter
      cases hnx : extNext env origin with
      | none => rw [hnx] at hiter; cases hiter
      | some p =>
        rw [hnx] at hiter
        rw [checkCyclicService_chase hwb hlt hnx fuel]
        exact chase_reach_origin hwb origin k' p fuel (extNext_lt hwb hnx) hiter (by omega)
  · intro env origin k s hwb hlt hiter hend hno fuel hfuel
    match k with
    | 0 =>
      simp only [extIter, Option.some.injEq] at hiter
      subst hiter
      exact checkCyclicService_none hwb hlt hend fuel
    | k' + 1 =>
      simp only [extIter] at hiter
      cases hnx : extNext env origin with
      | none => rw [hnx] at hiter; cases hiter
      | some p =>
        rw [hnx] at hiter
        rw [checkCyclicService_chase hwb hlt hnx fuel]
        refine chase_reach_end hwb origin k' p fuel s (extNext_lt hwb hnx) hiter hend ?_
          (by omega)
        intro j hj hcon
        refine hno (j + 1) (by omega) (by omega) ?_
        simp only [extIter, hnx]
        exact hcon

/-- Two services extending each other. -/
def cycEnv : Env :=
  ⟨[], [], [],
    [⟨"A", some ⟨"B", some (.service 1), []⟩, []⟩,
     ⟨"B", some ⟨"A", some (.service 0), []⟩, []⟩]⟩

/-- A two-element acyclic extends chain. -/
def chainEnv : Env :=
  ⟨[], [], [],
    [⟨"C", some ⟨"D", some (.service 1), []⟩, []⟩,
     ⟨"D", none, []⟩]⟩

theorem cycEnv_wellBound : WellBound cycEnv := by
  intro i s h
  match i with
  | 0 =>
    simp only [cycEnv, List.get?, Option.some.injEq] at h
    subst h
    exact Or.inr ⟨⟨"B", some (.service 1), []⟩, 1, rfl, rfl, by simp [cycEnv]⟩
  | 1 =>
    simp only [cycEnv, List.get?, Option.some.injEq] at h
    subst h
    exact Or.inr ⟨⟨"A", some (.service 0), []⟩, 0, rfl, rfl, by simp [cycEnv]⟩
  | n + 2 => simp [cycEnv, List.get?] at h

theorem chainEnv_wellBound : WellBound chainEnv := by
  intro i s h
  match i with
  | 0 =>
    simp only [chainEnv, List.get?, Option.some.injEq] at h
    subst h
    exact Or.inr ⟨⟨"D", some (.service 1), []⟩, 1, rfl, rfl, by simp [chainEnv]⟩
  | 1 =>
    simp only [chainEnv, List.get?, Option.some.injEq] at h
    subst h
    exact Or.inl rfl
  | n + 2 => simp [chainEnv, List.get?] at h

/-- Witness for C4 at concrete services: `A extends B extends A` is reported
cyclic, and `C extends D` (D final) is accepted. -/
theorem checkCyclicService_spec_witness :
    checkCyclicService cycEnv 2 0 = .cyclic ∧
    checkCyclicService chainEnv 1 0 = .ok := by
  constructor
  · exact checkCyclicService_spec.1 cycEnv 0 2 cycEnv_wellBound (by simp [cycEnv])
      (by omega) (by rfl) 2 (by omega)
  · exact checkCyclicService_spec.2 chainEnv 0 1 1 chainEnv_wellBound (by simp [chainEnv])
      (by rfl) (by rfl)
      (by
        intro j hj1 hj2 hcon
        match j, hj1, hj2 with
        | 1, _, _ => simp [extIter, extNext, chainEnv, List.get?] at hcon)
      1 (by omega)

mutual

/-- `CyclicChecker.findNestedType`: peel typedefs, traverse list/map element
types, and expand named struct references into their fields, searching for
the target struct.  `fuel` bounds the traversal; `none` for every fuel bound
renders the divergence the memoization-free Go recursion exhibits on cyclic
reference graphs that do not pass through the target. -/
def findNestedFuel (env : Env) : Nat → TypeE → Nat → Option Bool
  | 0, _, _ => none
  | fuel + 1, ttype, target =>
    match resolveD env ttype with
    | none => none
    | some (t, binding) =>
      match t with
      | .list inner => findNestedFuel env fuel inner target
      | .map kt vt =>
        match findNestedFuel env fuel kt target with
        | some true => some true
        | some false => findNestedFuel env fuel vt target
        | none => none
      | .named _ _ =>
        match binding with
        | some (.stru i) =>
          if i = target then some true
          else
            match env.structs.get? i with
            | none => some false
            | some decl => findInFields env fuel decl.fields target
        | _ => some false
      | .builtin _ => some false
termination_by fuel _ _ => (fuel, 0)

/-- The field loop inside `findNestedType`'s struct case. -/
def findInFields (env : Env) : Nat → List FieldDecl → Nat → Option Bool
  | _, [], _ => some false
  | fuel, f :: fs, target =>
    match findNestedFuel env fuel f.type target with
    | some true => some true
    | some false => findInFields env fuel fs target
    | none => none
termination_by fuel fs _ => (fuel, fs.length + 1)

end

/-- The arena for the C9 failing input: structs `A {1: B b}`, `B {1: C c}`,
`C {1: B b}` — a `B ↔ C` reference cycle that does not pass through `A`. -/
def cyc9Env : Env :=
  ⟨[⟨.structKw, "A", [⟨some 1, some .required, .named (some (.stru 1)) [], "b", none⟩]⟩,
    ⟨.structKw, "B", [⟨some 1, some .required, .named (some (.stru 2)) [], "c", none⟩]⟩,
    ⟨.structKw, "C", [⟨some 1, some .required, .named (some (.stru 1)) [], "b", none⟩]⟩],
   [], [], []⟩

/-- The arena for the C9 service failing input: `A extends B`, `B extends C`,
`C extends B` — an extends cycle that does not return to `A`. -/
def cyc9SvcEnv : Env :=
  ⟨[], [], [],
    [⟨"A", some ⟨"B", some (.service 1), []⟩, []⟩,
     ⟨"B", some ⟨"C", some (.service 2), []⟩, []⟩,
     ⟨"C", some ⟨"B", some (.service 1), []⟩, []⟩]⟩

/-- C9: on a forest that passes symbol entry, binding and type checking
(witnessed by the empty diagnostic lists below), the cyclic-check traversals
do not terminate when the reference graph contains a cycle that does not pass
through the node being checked: every fuel bound is exhausted, rendering the
unbounded divergence of the memoization-free Go recursion
(`findNestedType` recursing through `B ↔ C` while checking `A`, and the
`checkCyclicService` loop chasing `A → B → C → B → …`). -/
theorem cyclicCheck_divergence :
    (∀ fuel, findNestedFuel cyc9Env fuel (.named (some (.stru 1)) []) 0 = none) ∧
    (∀ fuel, chaseFuel cyc9SvcEnv fuel 0 1 = .fuelOut) ∧
    checkStruct cyc9Env ⟨.structKw, "A",
      [⟨some 1, some .required, .named (some (.stru 1)) [], "b", none⟩]⟩ = [] ∧
    checkStruct cyc9Env ⟨.structKw, "B",
      [⟨some 1, some .required, .named (some (.stru 2)) [], "c", none⟩]⟩ = [] ∧
    checkStruct cyc9Env ⟨.structKw, "C",
      [⟨some 1, some .required, .named (some (.stru 1)) [], "b", none⟩]⟩ = [] ∧
    checkService cyc9SvcEnv ⟨"A", some ⟨"B", some (.service 1), []⟩, []⟩ = [] ∧
    checkService cyc9SvcEnv ⟨"B", some ⟨"C", some (.service 2), []⟩, []⟩ = [] ∧
    checkService cyc9SvcEnv ⟨"C", some ⟨"B", some (.service 1), []⟩, []⟩ = [] := by
  have hstruct : ∀ fuel,
      findNestedFuel cyc9Env fuel (.named (some (.stru 1)) []) 0 = none ∧
      findNestedFuel cyc9Env fuel (.named (some (.stru 2)) []) 0 = none := by
    intro fuel
    induction fuel with
    | zero => exact ⟨by rw [findNestedFuel], by rw [findNestedFuel]⟩
    | succ n ih =>
      have ih1 := ih.1
      have ih2 := ih.2
      simp only [cyc9Env] at ih1 ih2
      constructor
      · rw [findNestedFuel]
        simp only [resolveD, resolveFuel, cyc9Env, List.get?]
        rw [findInFields, ih2]
        simp
      · rw [findNestedFuel]
        simp only [resolveD, resolveFuel, cyc9Env, List.get?]
        rw [findInFields, ih1]
        simp
  have hsvc : ∀ fuel, chaseFuel cyc9SvcEnv fuel 0 1 = .fuelOut ∧
      chaseFuel cyc9SvcEnv fuel 0 2 = .fuelOut := by
    intro fuel
    induction fuel with
    | zero => exact ⟨rfl, rfl⟩
    | succ n ih =>
      constructor
      · rw [chaseFuel]
        simp only [cyc9SvcEnv, List.get?]
        rw [if_neg (by omega)]
        exact ih.2
      · rw [chaseFuel]
        simp only [cyc9SvcEnv, List.get?]
        rw [if_neg (by omega)]
        exact ih.1
  exact ⟨fun fuel => (hstruct fuel).1, fun fuel => (hsvc fuel).1,
    rfl, rfl, rfl, rfl, rfl, rfl⟩

/-! ## C7: the phase driver (sema/phases.go) -/

/-- The five semantic phases, in the order of the `compilePhases` table. -/
inductive PhaseName where
  | enterSymbols | bindNames | typeCheck | cyclicCheck | checkUnused
  deriving DecidableEq, Repr

/-- The `compilePhases` list of `sema/phases.go`. -/
def compilePhases : List PhaseName :=
  [.enterSymbols, .bindNames, .typeCheck, .cyclicCheck, .checkUnused]

/-- The inner tree loop of `runPhases`, generic over the tree type `α` and
diagnostic type `γ`: each Go phase runs over one tree, appends its
diagnostics (`interp p t`) to the context, and returns
`!context.HasErrors()`; the driver aborts on `false`.  Returns the trace of
(phase, tree) units actually run, the accumulated diagnostics, and the
success flag. -/
def runTreeList {α γ : Type} (interp : PhaseName → α → List γ) (p : PhaseName) :
    List α → List γ → List (PhaseName × α) × List γ × Bool
  | [], errs => ([], errs, true)
  | t :: ts, errs =>
    let errs2 := errs ++ interp p t
    if errs2.isEmpty then
      let (vs, e, ok) := runTreeList interp p ts errs2
      ((p, t) :: vs, e, ok)
    else ([(p, t)], errs2, false)

/-- The outer phase loop of `runPhases`. -/
def runPhaseList {α γ : Type} (interp : PhaseName → α → List γ) :
    List PhaseName → List α → List γ → List (PhaseName × α) × List γ × Bool
  | [], _, errs => ([], errs, true)
  | p :: ps, trees, errs =>
    match runTreeList interp p trees errs with
    | (vs, errs2, true) =>
      let (vs2, e, ok) := runPhaseList interp ps trees errs2
      (vs ++ vs2, e, ok)
    | (vs, errs2, false) => (vs, errs2, false)

/-- `runPhases` of `sema/phases.go`: the phase-major double loop over the
`compilePhases` table and the flattened tree list, starting from a fresh
compile context. -/
def runPhases {α γ : Type} (interp : PhaseName → α → List γ) (trees : List α) :
    List (PhaseName × α) × List γ × Bool :=
  runPhaseList interp compilePhases trees []

theorem runTreeList_true {α γ : Type} (interp : PhaseName → α → List γ) (p : PhaseName) :
    ∀ (ts : List α) (vs : List (PhaseName × α)) (errs : List γ) (ok : Bool),
      runTreeList interp p ts [] = (vs, errs, ok) → ok = true →
      vs = ts.map (p, ·) ∧ errs = [] ∧ ∀ t ∈ ts, interp p t = [] := by
  intro ts
  induction ts with
  | nil =>
    intro vs errs ok h hok
    simp only [runTreeList] at h
    obtain ⟨rfl, rfl, rfl⟩ := Prod.mk.injEq .. ▸ h
    exact ⟨rfl, rfl, by intro t ht; cases ht⟩
  | cons t ts ih =>
    intro vs errs ok h hok
    simp only [runTreeList, List.nil_append] at h
    by_cases hds : (interp p t).isEmpty
    · rw [if_pos hds] at h
      have hempty : interp p t = [] := List.isEmpty_iff.mp hds
      rw [hempty] at h
      cases hrec : runTreeList interp p ts [] with
      | mk vs1 rest =>
        obtain ⟨e1, ok1⟩ := rest
        rw [hrec] at h
        simp only [Prod.mk.injEq] at h
        obtain ⟨rfl, rfl, rfl⟩ := h
        obtain ⟨hvs, herrs, hall⟩ := ih vs1 e1 ok1 hrec hok
        refine ⟨by rw [hvs]; rfl, herrs, ?_⟩
        intro t2 ht2
        rcases List.mem_cons.mp ht2 with rfl | h2
        · exact hempty
        · exact hall t2 h2
    · rw [if_neg hds] at h
      simp only [Prod.mk.injEq] at h
      obtain ⟨-, -, hfalse⟩ := h
      rw [← hfalse] at hok
      cases hok

theorem runTreeList_false {α γ : Type} (interp : PhaseName → α → List γ) (p : PhaseName) :
    ∀ (ts : List α) (vs : List (PhaseName × α)) (errs : List γ),
      runTreeList interp p ts [] = (vs, errs, false) →
      ∃ good b rest, ts = good ++ b :: rest ∧ (∀ t ∈ good, interp p t = []) ∧
        interp p b ≠ [] ∧ vs = good.map (p, ·) ++ [(p, b)] ∧ errs = interp p b := by
  intro ts
  induction ts with
  | nil =>
    intro vs errs h
    simp only [runTreeList, Prod.mk.injEq] at h
    obtain ⟨-, -, h⟩ := h
    cases h
  | cons t ts ih =>
    intro vs errs h
    simp only [runTreeList, List.nil_append] at h
    by_cases hds : (interp p t).isEmpty
    · rw [if_pos hds] at h
      have hempty : interp p t = [] := List.isEmpty_iff.mp hds
      rw [hempty] at h
      cases hrec : runTreeList interp p ts [] with
      | mk vs1 rest =>
        obtain ⟨e1, ok1⟩ := rest
        rw [hrec] at h
        simp only [Prod.mk.injEq] at h
        obtain ⟨rfl, rfl, hok⟩ := h
        obtain ⟨good, b, rest2, hts, hgood, hb, hvs, herrs⟩ :=
          ih vs1 e1 (by rw [hrec, ← hok])
        refine ⟨t :: good, b, rest2, by simp [hts], ?_, hb, by rw [hvs]; rfl, herrs⟩
        intro t2 ht2
        rcases List.mem_cons.mp ht2 with rfl | h2
        · exact hempty
        · exact hgood t2 h2
    · rw [if_neg hds] at h
      simp only [Prod.mk.injEq] at h
      obtain ⟨rfl, rfl, -⟩ := h
      exact ⟨[], t, ts, rfl, (by intro t2 ht2; cases ht2),
        (fun hcon => hds (by rw [hcon]; rfl)), rfl, rfl⟩

theorem mem_dropLast_append {β : Type} {v : β} {a b : List β}
    (h : v ∈ (a ++ b).dropLast) : v ∈ a ∨ v ∈ b.dropLast := by
  cases hb : b with
  | nil =>
    rw [hb, List.append_nil] at h
    exact Or.inl (List.dropLast_subset _ h)
  | cons c cs =>
    rw [hb, List.dropLast_append_cons] at h
    rcases List.mem_append.mp h with h1 | h1
    · exact Or.inl h1
    · exact Or.inr h1

theorem runTreeList_clean {α γ : Type} (interp : PhaseName → α → List γ) (p : PhaseName) :
    ∀ (ts : List α), (∀ t ∈ ts, interp p t = []) →
      runTreeList interp p ts [] = (ts.map (p, ·), [], true) := by
  intro ts
  induction ts with
  | nil => intro _; rfl
  | cons t ts ih =>
    intro hall
    simp only [runTreeList, List.nil_append]
    rw [hall t (by simp)]
    simp only [List.isEmpty_nil, if_pos]
    rw [ih (fun t2 h2 => hall t2 (List.mem_cons_of_mem _ h2))]
    rfl

theorem runPhaseList_prefix {α γ : Type} (interp : PhaseName → α → List γ) :
    ∀ (ps : List PhaseName) (trees : List α),
      ∃ rest, (runPhaseList interp ps trees []).1 ++ rest =
        ps.flatMap (fun p => trees.map (p, ·)) := by
  intro ps
  induction ps with
  | nil => intro trees; exact ⟨[], rfl⟩
  | cons p ps ih =>
    intro trees
    simp only [runPhaseList]
    cases h : runTreeList interp p trees [] with
    | mk vs0 rest0 =>
      obtain ⟨e0, ok0⟩ := rest0
      cases ok0 with
      | true =>
        obtain ⟨hvs, he, -⟩ := runTreeList_true interp p trees vs0 e0 true h rfl
        subst hvs
        subst he
        obtain ⟨rest, hrest⟩ := ih trees
        refine ⟨rest, ?_⟩
        simp only [List.flatMap_cons, List.append_assoc]
        rw [hrest]
      | false =>
        obtain ⟨good, b, rest2, htrees, -, -, hvs, -⟩ :=
          runTreeList_false interp p trees vs0 e0 h
        refine ⟨rest2.map (p, ·) ++ ps.flatMap (fun q => trees.map (q, ·)), ?_⟩
        simp only [List.flatMap_cons]
        rw [hvs, htrees]
        simp

theorem runPhaseList_dropLast {α γ : Type} (interp : PhaseName → α → List γ) :
    ∀ (ps : List PhaseName) (trees : List α),
      ∀ v ∈ (runPhaseList interp ps trees []).1.dropLast, interp v.1 v.2 = [] := by
  intro ps
  induction ps with
  | nil => intro trees v hv; cases hv
  | cons p ps ih =>
    intro trees v hv
    simp only [runPhaseList] at hv
    cases h : runTreeList interp p trees [] with
    | mk vs0 rest0 =>
      obtain ⟨e0, ok0⟩ := rest0
      rw [h] at hv
      cases ok0 with
      | true =>
        obtain ⟨hvs, he, hall⟩ := runTreeList_true interp p trees vs0 e0 true h rfl
        subst he
        simp only at hv
        rcases mem_dropLast_append hv with h1 | h1
        · rw [hvs] at h1
          rcases List.mem_map.mp h1 with ⟨t, ht, rfl⟩
          exact hall t ht
        · exact ih trees v h1
      | false =>
        obtain ⟨good, b, rest2, -, hgood, -, hvs, -⟩ :=
          runTreeList_false interp p trees vs0 e0 h
        simp only at hv
        rw [hvs, List.dropLast_concat] at hv
        rcases List.mem_map.mp hv with ⟨t, ht, rfl⟩
        exact hgood t ht

theorem runPhaseList_clean {α γ : Type} (interp : PhaseName → α → List γ) :
    ∀ (ps : List PhaseName) (trees : List α),
      (∀ p ∈ ps, ∀ t ∈ trees, interp p t = []) →
      runPhaseList interp ps trees [] =
        (ps.flatMap (fun p => trees.map (p, ·)), [], true) := by
  intro ps
  induction ps with
  | nil => intro trees _; rfl
  | cons p ps ih =>
    intro trees hall
    simp only [runPhaseList]
    rw [runTreeList_clean interp p trees (hall p (by simp))]
    dsimp only
    rw [ih trees (fun q hq t ht => hall q (List.mem_cons_of_mem _ hq) t ht)]
    simp

theorem runPhaseList_ok {α γ : Type} (interp : PhaseName → α → List γ) :
    ∀ (ps : List PhaseName) (trees : List α),
      (runPhaseList interp ps trees []).2.2 = true →
      ∀ p ∈ ps, ∀ t ∈ trees, interp p t = [] := by
  intro ps
  induction ps with
  | nil => intro trees _ p hp; cases hp
  | cons p ps ih =>
    intro trees hok q hq t ht
    simp only [runPhaseList] at hok
    cases h : runTreeList interp p trees [] with
    | mk vs0 rest0 =>
      obtain ⟨e0, ok0⟩ := rest0
      rw [h] at hok
      cases ok0 with
      | true =>
        obtain ⟨-, he, hall⟩ := runTreeList_true interp p trees vs0 e0 true h rfl
        subst he
        simp only at hok
        rcases List.mem_cons.mp hq with rfl | hq2
        · exact hall t ht
        · exact ih trees hok q hq2 t ht
      | false => simp at hok

/-- C7: `runPhases` runs the five phases of the `compilePhases` table in its
fixed order (enter-symbols, bind-names, type-check, cyclic-check,
check-unused); its visit trace is a prefix of the phase-major enumeration of
phases over trees, so every phase completes over every tree before the next
phase starts; a run in which no phase records a diagnostic for any tree
visits the whole enumeration and succeeds; every non-final visit recorded no
diagnostic (the driver stops at the visit that records one, so no later
phase — and no later tree of the same phase — is ever run); and a successful
run implies no phase recorded a diagnostic anywhere.  The theorem holds for
every interpretation of the phase bodies, hence for the real checkers. -/
theorem runPhases_driver_spec :
    compilePhases = [.enterSymbols, .bindNames, .typeCheck, .cyclicCheck, .checkUnused] ∧
    (∀ (α γ : Type) (interp : PhaseName → α → List γ) (trees : List α),
      ∃ rest, (runPhases interp trees).1 ++ rest =
        compilePhases.flatMap (fun p => trees.map (p, ·))) ∧
    (∀ (α γ : Type) (interp : PhaseName → α → List γ) (trees : List α),
      (∀ p t, t ∈ trees → interp p t = []) →
      runPhases interp trees =
        (compilePhases.flatMap (fun p => trees.map (p, ·)), [], true)) ∧
    (∀ (α γ : Type) (interp : PhaseName → α → List γ) (trees : List α),
      ∀ v ∈ (runPhases interp trees).1.dropLast, interp v.1 v.2 = []) ∧
    (∀ (α γ : Type) (interp : PhaseName → α → List γ) (trees : List α),
      (runPhases interp trees).2.2 = true →
      ∀ p ∈ compilePhases, ∀ t ∈ trees, interp p t = []) := by
  refine ⟨rfl, ?_, ?_, ?_, ?_⟩
  · intro α γ interp trees
    exact runPhaseList_prefix interp compilePhases trees
  · intro α γ interp trees hall
    exact runPhaseList_clean interp compilePhases trees (fun p _ t ht => hall p t ht)
  · intro α γ interp trees
    exact runPhaseList_dropLast interp compilePhases trees
  · intro α γ interp trees hok
    exact runPhaseList_ok interp compilePhases trees hok

/-- Witness for C7 at a concrete interpretation: with two trees and no
diagnostics anywhere, the driver visits all five phases over both trees in
phase-major order and succeeds. -/
theorem runPhases_driver_spec_witness :
    runPhases (fun _ (_ : Nat) => ([] : List Nat)) [0, 1] =
      (compilePhases.flatMap (fun p => [(p, 0), (p, 1)]), [], true) := by
  have h := runPhases_driver_spec.2.2.1 Nat Nat (fun _ _ => []) [0, 1]
    (fun _ _ _ => rfl)
  rw [h]
  rfl

/-! ## C5: name-binding marks and the unused-include check
(sema/name_binding.go, sema/check_unused.go)

The binder sees trees before resolution: name references are dotted paths.
Cross-tree structure is flattened into `IncludeInfo` (the include-map key,
the directive's string literal, and the included tree's package name and
top-level name list), which is all `resolvePath` and `checkUnused` consult. -/

/-- One entry of a parse tree's include map. -/
structure IncludeInfo where
  name : String
  tok : String
  pkg : String
  treeNames : List String
  deriving DecidableEq, Repr

/-- A type expression as the binder sees it: named references carry their
dotted path. -/
inductive TypeB where
  | builtin
  | named (path : List String)
  | list (inner : TypeB)
  | map (key value : TypeB)
  deriving DecidableEq, Repr

/-- An initializer expression as the binder sees it. -/
inductive ExprB where
  | lit
  | name (path : List String)
  | list (xs : List ExprB)
  | map (entries : List (ExprB × ExprB))

/-- A struct field as the binder sees it. -/
structure FieldB where
  type : TypeB
  defaultVal : Option ExprB

/-- A service method as the binder sees it. -/
structure MethodB where
  returnType : TypeB
  args : List TypeB
  throws : List TypeB

/-- A top-level node as the binder sees it. -/
inductive NodeB where
  | typedef (t : TypeB)
  | constNode (t : TypeB) (init : ExprB)
  | service (extendsPath : Option (List String)) (methods : List MethodB)
  | structNode (fields : List FieldB)
  | enum

/-- A parse tree as the binder and the unused-include check see it. -/
structure TreeB where
  package : String
  names : List String
  includes : List IncludeInfo
  nodes : List NodeB

/-- The paths visited by `bindType` (list/map recursion, named leaves). -/
def typePaths : TypeB → List (List String)
  | .builtin => []
  | .named p => [p]
  | .list t => typePaths t
  | .map k v => typePaths k ++ typePaths v

mutual

/-- The paths visited by `bindNamesInNode` on expressions. -/
def exprPaths : ExprB → List (List String)
  | .lit => []
  | .name p => [p]
  | .list xs => exprListPaths xs
  | .map entries => exprPairsPaths entries

def exprListPaths : List ExprB → List (List String)
  | [] => []
  | x :: xs => exprPaths x ++ exprListPaths xs

def exprPairsPaths : List (ExprB × ExprB) → List (List String)
  | [] => []
  | (k, v) :: es => exprPaths k ++ exprPaths v ++ exprPairsPaths es

end

/-- The paths visited by `bindNamesInNode` on one top-level node. -/
def nodePaths : NodeB → List (List String)
  | .typedef t => typePaths t
  | .constNode t init => typePaths t ++ exprPaths init
  | .service ext methods =>
    (match ext with
     | some p => [p]
     | none => []) ++
    (methods.map (fun m => typePaths m.returnType ++ (m.args.map typePaths).flatten ++
      (m.throws.map typePaths).flatten)).flatten
  | .structNode fields =>
    (fields.map (fun f => typePaths f.type ++
      (match f.defaultVal with
       | some d => exprPaths d
       | none => []))).flatten
  | .enum => []

/-- Every path the binder resolves in one tree, in visit order. -/
def treePaths (tree : TreeB) : List (List String) :=
  (tree.nodes.map nodePaths).flatten

/-- `NameBinder.resolvePath`: resolve locally first (marking the current
tree's package in the used-includes set, as `resolvePathInPackage` does),
then through the include map (marking the included tree's package even when
the inner name lookup fails), else report an unresolved name.  Returns the
used-include marks and the diagnostics of this one resolution. -/
def resolvePath (tree : TreeB) (path : List String) : List String × List Diag :=
  match path with
  | [] => ([], [])
  | root :: rest =>
    if root ∈ tree.names then
      ([tree.package], [])
    else
      match tree.includes.find? (fun inc => inc.name = root) with
      | some inc =>
        match rest with
        | [] => ([], [.packageAlone root])
        | r2 :: _ =>
          ([inc.pkg], if r2 ∈ inc.treeNames then [] else [.nameNotFound r2 inc.pkg])
      | none => ([], [.unresolvedName root])

/-- `bindNames`: resolve every path of the tree, accumulating the
used-includes set and the diagnostics. -/
def bindTree (tree : TreeB) : List String × List Diag :=
  (((treePaths tree).map (fun p => (resolvePath tree p).1)).flatten,
   ((treePaths tree).map (fun p => (resolvePath tree p).2)).flatten)

/-- `checkUnused` of `sema/check_unused.go`: an include whose map key is not
in the used-includes set is reported with its directive's string literal. -/
def checkUnused (tree : TreeB) (used : List String) : List Diag :=
  tree.includes.filterMap
    (fun inc => if inc.name ∈ used then none else some (.unusedInclude inc.tok))

theorem resolvePath_marks (tree : TreeB) (p : List String) (n : String)
    (h : n ∈ (resolvePath tree p).1) :
    n = tree.package ∨
      ∃ inc root rest2, p = root :: rest2 ∧ rest2 ≠ [] ∧ root ∉ tree.names ∧
        tree.includes.find? (fun i => i.name = root) = some inc ∧ n = inc.pkg := by
  unfold resolvePath at h
  match p with
  | [] => cases h
  | root :: rest =>
    dsimp only at h
    by_cases hroot : root ∈ tree.names
    · rw [if_pos hroot] at h
      simp only [List.mem_singleton] at h
      exact Or.inl h
    · rw [if_neg hroot] at h
      cases hfind : tree.includes.find? (fun i => i.name = root) with
      | none => rw [hfind] at h; cases h
      | some inc =>
        rw [hfind] at h
        match rest with
        | [] => cases h
        | r2 :: rest2 =>
          simp only [List.mem_singleton] at h
          exact Or.inr ⟨inc, root, r2 :: rest2, rfl, by simp, hroot, hfind, h⟩

theorem resolvePath_marks_include (tree : TreeB) (root r2 : String)
    (rest : List String) (inc : IncludeInfo) (hroot : root ∉ tree.names)
    (hfind : tree.includes.find? (fun i => i.name = root) = some inc) :
    inc.pkg ∈ (resolvePath tree (root :: r2 :: rest)).1 := by
  unfold resolvePath
  dsimp only
  rw [if_neg hroot, hfind]
  simp

/-- C5: after binding, an include is reported as unused if and only if name
binding never resolved any path through it — any path of the tree whose head
is the include's name (and is not shadowed by a local declaration) with at
least two components marks the include used, even when the looked-up name is
missing from the included tree.  The hypotheses are parser invariants: each
include-map key is the included tree's package name, is distinct from the
including tree's own package, and map keys and directive literals are
unique. -/
theorem unused_include_spec :
    ∀ (tree : TreeB),
      (∀ inc ∈ tree.includes, inc.pkg = inc.name) →
      (∀ inc ∈ tree.includes, inc.name ≠ tree.package) →
      ((tree.includes.map (·.name)).Nodup) →
      ((tree.includes.map (·.tok)).Nodup) →
      ∀ inc ∈ tree.includes,
        (Diag.unusedInclude inc.tok ∈ checkUnused tree (bindTree tree).1 ↔
          ¬ ∃ p ∈ treePaths tree, p.head? = some inc.name ∧ inc.name ∉ tree.names ∧
            2 ≤ p.length) := by
  intro tree hpkg hself hnames htoks inc hinc
  have hused : inc.name ∈ (bindTree tree).1 ↔
      ∃ p ∈ treePaths tree, p.head? = some inc.name ∧ inc.name ∉ tree.names ∧
        2 ≤ p.length := by
    constructor
    · intro h
      unfold bindTree at h
      rcases List.mem_flatten.mp h with ⟨l, hl, hml⟩
      rcases List.mem_map.mp hl with ⟨p, hp, rfl⟩
      rcases resolvePath_marks tree p inc.name hml with h1 | ⟨inc2, root, rest2, rfl, hne, hroot, hfind, hn⟩
      · exact absurd h1 (hself inc hinc)
      · have hinc2mem : inc2 ∈ tree.includes := List.mem_of_find?_eq_some hfind
        have hpred : inc2.name = root := by
          have := List.find?_some hfind
          simpa using this
        have hname : inc.name = inc2.name := by
          rw [hn, hpkg inc2 hinc2mem]
        refine ⟨root :: rest2, hp, ?_, ?_, ?_⟩
        · simp [hname, hpred]
        · rw [hname, hpred]
          exact hroot
        · match rest2, hne with
          | r2 :: rest3, _ => simp
    · rintro ⟨p, hp, hhead, hnotlocal, hlen⟩
      match p, hhead, hlen with
      | root :: r2 :: rest, hhead, _ =>
        simp only [List.head?_cons, Option.some.injEq] at hhead
        subst hhead
        have hfind : (tree.includes.find? (fun i => i.name = inc.name)).isSome := by
          rw [List.find?_isSome]
          exact ⟨inc, hinc, by simp⟩
        cases hf : tree.includes.find? (fun i => i.name = inc.name) with
        | none => rw [hf] at hfind; cases hfind
        | some inc2 =>
          have hpred : inc2.name = inc.name := by
            have := List.find?_some hf
            simpa using this
          have hpkg2 : inc2.pkg = inc.name := by
            rw [hpkg inc2 (List.mem_of_find?_eq_some hf), hpred]
          unfold bindTree
          rw [List.mem_flatten]
          refine ⟨(resolvePath tree (inc.name :: r2 :: rest)).1,
            List.mem_map.mpr ⟨inc.name :: r2 :: rest, hp, rfl⟩, ?_⟩
          exact hpkg2 ▸ resolvePath_marks_include tree inc.name r2 rest inc2 hnotlocal hf
  have hcheck : Diag.unusedInclude inc.tok ∈ checkUnused tree (bindTree tree).1 ↔
      inc.name ∉ (bindTree tree).1 := by
    constructor
    · intro h
      rcases List.mem_filterMap.mp h with ⟨inc2, hinc2, hif⟩
      by_cases hin : inc2.name ∈ (bindTree tree).1
      · rw [if_pos hin] at hif
        cases hif
      · rw [if_neg hin] at hif
        simp only [Option.some.injEq, Diag.unusedInclude.injEq] at hif
        have : inc2 = inc := List.inj_on_of_nodup_map htoks hinc2 hinc hif
        rw [← this]
        exact hin
    · intro h
      refine List.mem_filterMap.mpr ⟨inc, hinc, ?_⟩
      rw [if_neg h]
  rw [hcheck, hused]

/-- Tree `A` (package `a`) that includes `B` and references `b.User`. -/
def treeAUsing : TreeB :=
  ⟨"a", ["LocalType"], [⟨"b", "b.thrift", "b", ["User"]⟩],
    [.typedef (.named ["b", "User"])]⟩

/-- Tree `A` that includes `B` and never references it. -/
def treeAUnused : TreeB :=
  ⟨"a", ["LocalType"], [⟨"b", "b.thrift", "b", ["User"]⟩], []⟩

/-- Witness for C5 at the spec's include scenario: referencing a type from
the included tree suppresses the unused-include diagnostic; never
referencing it produces the diagnostic carrying the directive's literal. -/
theorem unused_include_spec_witness :
    Diag.unusedInclude "b.thrift" ∉ checkUnused treeAUsing (bindTree treeAUsing).1 ∧
    Diag.unusedInclude "b.thrift" ∈ checkUnused treeAUnused (bindTree treeAUnused).1 := by
  constructor
  · intro h
    have hspec := unused_include_spec treeAUsing
      (by
        intro i hi
        cases hi with
        | head => rfl
        | tail _ h1 => cases h1)
      (by
        intro i hi
        cases hi with
        | head => decide
        | tail _ h1 => cases h1)
      (by decide) (by decide)
      ⟨"b", "b.thrift", "b", ["User"]⟩ (List.Mem.head _)
    refine (hspec.mp h) ⟨["b", "User"], ?_, rfl, by decide, by decide⟩
    simp [treePaths, treeAUsing, nodePaths, typePaths]
  · have hspec := unused_include_spec treeAUnused
      (by
        intro i hi
        cases hi with
        | head => rfl
        | tail _ h1 => cases h1)
      (by
        intro i hi
        cases hi with
        | head => decide
        | tail _ h1 => cases h1)
      (by decide) (by decide)
      ⟨"b", "b.thrift", "b", ["User"]⟩ (List.Mem.head _)
    refine hspec.mpr ?_
    rintro ⟨p, hp, -⟩
    simp [treePaths, treeAUnused] at hp
